import Mathlib

/-!
Verification of the Pitsweeper propositional-logic engine and agent.

This file gives a shallow embedding of the repository's Python modules:
`maze_clause.py` (propositions, clauses, resolution), `maze_knowledge_base.py`
(CNF knowledge base: tell / simplify / ask by resolution refutation),
`maze_agent.py` (belief tracking, constraint translation, BFS planning) and
`move.py` (the Move data structure), and proves or refutes the testable
properties stated for them.

Modelling conventions:
- Python dicts become insertion-ordered association lists with unique keys
  (`dictGet`, `dictInsert`, `dictRemove` mirror `d[k]`, `d[k] = v`, `del d[k]`).
- Python sets become insertion-ordered duplicate-free lists; set membership of
  `MazeClause` values uses the class's `__eq__` (order-insensitive comparison
  of the prop items plus the valid flag), embedded as `mcEq`.
- The unbounded `while` saturation loop of `ask` and the BFS `while queue`
  loop become fuel-indexed recursions; the fuel passed by the wrappers is a
  bound on the number of iterations the Python loop can perform (see the
  comments at `MazeKnowledgeBase.ask` and the BFS wrappers), and the safety
  properties proved below hold for every fuel value.
-/

namespace Pitsweeper

/-- Grid coordinates, `(x, y)` aka `(col, row)`. -/
abbrev Loc := Int × Int

/-- A maze proposition: a symbol (always "P" in the agent) with a location. -/
abbrev MazeProp := String × Loc

/-! ### Python dict as an insertion-ordered association list -/

/-- `d.get(k)` on a Python dict. -/
def dictGet (d : List (MazeProp × Bool)) (k : MazeProp) : Option Bool :=
  match d with
  | [] => none
  | (k', v) :: rest => if k' = k then some v else dictGet rest k

/-- `d[k] = v` on a Python dict: overwrite in place, else append. -/
def dictInsert (d : List (MazeProp × Bool)) (k : MazeProp) (v : Bool) :
    List (MazeProp × Bool) :=
  match d with
  | [] => [(k, v)]
  | (k', v') :: rest =>
    if k' = k then (k', v) :: rest else (k', v') :: dictInsert rest k v

/-- `del d[k]` on a Python dict (call sites guarantee the key is present). -/
def dictRemove (d : List (MazeProp × Bool)) (k : MazeProp) :
    List (MazeProp × Bool) :=
  match d with
  | [] => []
  | (k', v') :: rest =>
    if k' = k then rest else (k', v') :: dictRemove rest k

/-- `d.update(items)`: insert every pair of `items` into `d`, in order. -/
def dictUpdateAll (d : List (MazeProp × Bool)) (items : List (MazeProp × Bool)) :
    List (MazeProp × Bool) :=
  items.foldl (fun acc kv => dictInsert acc kv.1 kv.2) d

/-! ### MazeClause (`maze_clause.py`) -/

/-- A `MazeClause`: the dict of props mapped to truth values, plus the valid
flag.  `props` models the Python dict (insertion ordered, unique keys). -/
structure MazeClause where
  props : List (MazeProp × Bool)
  valid : Bool
deriving DecidableEq, Repr

/-- Loop body of `MazeClause.__init__`: fold the input prop list into the
dict; a conflicting re-occurrence marks the clause valid, clears the dict and
stops. -/
def mkClauseAux (acc : List (MazeProp × Bool)) :
    List (MazeProp × Bool) → MazeClause
  | [] => ⟨acc, false⟩
  | (p, tv) :: rest =>
    match dictGet acc p with
    | some tv' =>
      if tv' ≠ tv then ⟨[], true⟩ else mkClauseAux acc rest
    | none => mkClauseAux (acc ++ [(p, tv)]) rest

/-- `MazeClause(props)`. -/
def mkClause (props : List (MazeProp × Bool)) : MazeClause :=
  mkClauseAux [] props

/-- `MazeClause.get_prop`. -/
def MazeClause.get_prop (c : MazeClause) (p : MazeProp) : Option Bool :=
  dictGet c.props p

/-- `MazeClause.is_valid`. -/
def MazeClause.is_valid (c : MazeClause) : Bool := c.valid

/-- `MazeClause.is_empty`. -/
def MazeClause.is_empty (c : MazeClause) : Bool :=
  !c.valid && c.props.length == 0

/-- One list's items all occur in another (frozenset inclusion). -/
def itemsSubset (l1 l2 : List (MazeProp × Bool)) : Bool :=
  l1.all (fun x => l2.contains x)

/-- `MazeClause.__eq__`: equal frozensets of prop items and equal valid
flags. -/
def mcEq (c1 c2 : MazeClause) : Bool :=
  itemsSubset c1.props c2.props && itemsSubset c2.props c1.props &&
    (c1.valid == c2.valid)

/-- The complementary props found by the loop in `MazeClause.resolve`: props
of `c1` that occur in `c2` with the opposite truth value, in `c1`'s dict
order. -/
def oppositeProps (c1 c2 : MazeClause) : List MazeProp :=
  c1.props.filterMap (fun pv =>
    match dictGet c2.props pv.1 with
    | some v2 => if pv.2 ≠ v2 then some pv.1 else none
    | none => none)

/-- `MazeClause.resolve`.  The Python returns a set of at most one clause; we
return a list of at most one clause. -/
def MazeClause.resolve (c1 c2 : MazeClause) : List MazeClause :=
  if mcEq c1 c2 || c1.valid || c2.valid then []
  else
    match oppositeProps c1 c2 with
    | [p] =>
      let clause1Copy := dictRemove c1.props p
      let clause2Copy := dictRemove c2.props p
      let reducedProps := dictUpdateAll (dictUpdateAll [] clause1Copy) clause2Copy
      let inferredClause := mkClause reducedProps
      if inferredClause.valid then [] else [inferredClause]
    | _ => []

/-! ### MazeKnowledgeBase (`maze_knowledge_base.py`) -/

/-- Membership in a Python `set[MazeClause]`, which deduplicates through
`MazeClause.__eq__` / `__hash__`. -/
def mcElem (c : MazeClause) (s : List MazeClause) : Bool :=
  s.any (fun c' => mcEq c' c)

/-- `s.add(c)` on a Python `set[MazeClause]` (insertion order retained). -/
def mcSetAdd (s : List MazeClause) (c : MazeClause) : List MazeClause :=
  if mcElem c s then s else s ++ [c]

/-- `s1 | s2` on Python `set[MazeClause]` values. -/
def mcSetUnion (s1 s2 : List MazeClause) : List MazeClause :=
  s2.foldl mcSetAdd s1

/-- `s1 - s2` on Python `set[MazeClause]` values. -/
def mcSetDiff (s1 s2 : List MazeClause) : List MazeClause :=
  s1.filter (fun c => !mcElem c s2)

/-- The knowledge base: a Python `set` of clauses, modelled as an
insertion-ordered duplicate-free list. -/
structure MazeKnowledgeBase where
  clauses : List MazeClause
deriving DecidableEq, Repr

/-- `MazeKnowledgeBase.tell`: `self.clauses.add(clause)`. -/
def MazeKnowledgeBase.tell (kb : MazeKnowledgeBase) (clause : MazeClause) :
    MazeKnowledgeBase :=
  ⟨mcSetAdd kb.clauses clause⟩

/-- The `for clause in clauses` loop of `get_simplified_clauses`, returning
the accumulated `(to_add, to_rem)` pair.  Note the source `break`s out of the
loop as soon as it finds one clause whose literal agrees with the fact. -/
def simplifyLoop (saniClause : MazeClause) (loc : Loc) (isPit : Bool)
    (toAdd toRem : List MazeClause) :
    List MazeClause → List MazeClause × List MazeClause
  | [] => (toAdd, toRem)
  | clause :: rest =>
    if clause.props.length == 1 then
      simplifyLoop saniClause loc isPit toAdd toRem rest
    else if clause.get_prop ("P", loc) == some isPit then
      (toAdd, mcSetAdd toRem clause)
    else
      simplifyLoop saniClause loc isPit
        (mcSetUnion toAdd (MazeClause.resolve clause saniClause)) toRem rest

/-- `MazeKnowledgeBase.get_simplified_clauses`. -/
def MazeKnowledgeBase.get_simplified_clauses (clauses : List MazeClause)
    (loc : Loc) (isPit : Bool) : List MazeClause :=
  let saniClause := mkClause [((("P" : String), loc), isPit)]
  let (toAdd, toRem) := simplifyLoop saniClause loc isPit [] [] clauses
  mcSetDiff (mcSetUnion clauses toAdd) toRem

/-- `known_pits | known_safe` on Python sets of locations, modelled on
duplicate-free lists. -/
def locSetUnion (s1 s2 : List Loc) : List Loc :=
  s1 ++ s2.filter (fun l => !s1.contains l)

/-- `MazeKnowledgeBase.simplify_from_known_locs`. -/
def MazeKnowledgeBase.simplify_from_known_locs (clauses : List MazeClause)
    (knownPits knownSafe : List Loc) : List MazeClause :=
  (locSetUnion knownPits knownSafe).foldl
    (fun cls loc =>
      MazeKnowledgeBase.get_simplified_clauses cls loc (knownPits.contains loc))
    clauses

/-- `MazeKnowledgeBase.simplify_self`. -/
def MazeKnowledgeBase.simplify_self (kb : MazeKnowledgeBase)
    (knownPits knownSafe : List Loc) : MazeKnowledgeBase :=
  ⟨MazeKnowledgeBase.simplify_from_known_locs kb.clauses knownPits knownSafe⟩

/-- The negated query built at the top of `MazeKnowledgeBase.ask`. -/
def negateQuery (query : MazeClause) : MazeClause :=
  mkClause (query.props.map (fun pv => (pv.1, !pv.2)))

/-- `itertools.combinations(l, 2)`: all ordered pairs of elements at
positions `i < j`. -/
def pairsOf : List MazeClause → List (MazeClause × MazeClause)
  | [] => []
  | x :: rest => rest.map (fun y => (x, y)) ++ pairsOf rest

/-- One pass of the `ask` saturation loop over the snapshot of clause pairs.
Returns `none` when an empty (contradiction) resolvent appears — the Python
`return True` — and otherwise the grown working list together with the
`adding_clauses` flag. -/
def askPass (working : List MazeClause) (adding : Bool) :
    List (MazeClause × MazeClause) → Option (List MazeClause × Bool)
  | [] => some (working, adding)
  | (clause1, clause2) :: rest =>
    match MazeClause.resolve clause1 clause2 with
    | [] => askPass working adding rest
    | resolvedClause :: _ =>
      let inWorking := mcElem resolvedClause working
      let working' := if inWorking then working else working ++ [resolvedClause]
      let adding' := if inWorking then adding else true
      if resolvedClause.is_empty then none
      else askPass working' adding' rest

/-- The `while adding_clauses` loop of `ask`, indexed by fuel.  Each
iteration but the last strictly grows the working list, so any fuel at least
one plus the number of distinct addable clauses makes the recursion reach
the Python loop's own exit. -/
def askLoop : Nat → List MazeClause → Bool
  | 0, _ => false
  | fuel + 1, working =>
    match askPass working false (pairsOf working) with
    | none => true
    | some (working', adding) =>
      if adding then askLoop fuel working' else false

/-- `MazeKnowledgeBase.ask`.  Every clause the loop can add is non-valid with
props drawn from the keys already present in the initial working list, of
which there are at most `n = totalLits`; there are fewer than `2 * 3 ^ n`
distinct clauses over those keys under `MazeClause.__eq__`, so
`2 * 3 ^ n + 2` passes are more than the saturation loop can perform, and
the fuel branch of `askLoop` is never the one that answers. -/
def MazeKnowledgeBase.ask (kb : MazeKnowledgeBase) (query : MazeClause) : Bool :=
  let working := kb.clauses ++ [negateQuery query]
  let totalLits := (working.map (fun c => c.props.length)).sum
  askLoop (2 * 3 ^ totalLits + 2) working

/-! ### Move (`move.py`) -/

/-- The `Move` data structure. -/
structure Move where
  location : Loc
  sensorDirection : Option String
deriving DecidableEq, Repr

/-- `Move.__init__`: stores the fields, then raises `ValueError` when the
sensor direction is neither `None` nor one of `"U"`, `"D"`, `"L"`, `"R"`.
No check of any kind is made on `location`. -/
def moveInit (location : Loc) (sensorDirection : Option String) :
    Except String Move :=
  match sensorDirection with
  | none => Except.ok ⟨location, none⟩
  | some d =>
    if d = "U" ∨ d = "D" ∨ d = "L" ∨ d = "R" then
      Except.ok ⟨location, some d⟩
    else
      Except.error "Sensor direction must be one of U, D, L, R or None"

/-! ### MazeAgent (`maze_agent.py`)

The environment is an external collaborator (per the specification's scope);
the agent only calls `get_cardinal_locs`, `get_directional_locs` and
`get_playable_locs` on it, so we model it as a record of those three
observations.  The agent state carries the belief-tracking fields of
`MazeAgent`; the bookkeeping fields that no claim touches and that no
belief-updating code reads or writes (`tile_visit_count`, `visited_tiles`,
`last_move`, `fallback_counter`, `maze`, `breeze_tiles`) are omitted. -/

/-- The observations the agent code reads from the `Environment`. -/
structure Env where
  cardinalLocs : Loc → Nat → List Loc
  directionalLocs : Loc → String → Nat → List Loc
  playableLocs : List Loc

/-- A perception dictionary handed to `MazeAgent.think`. -/
structure Perception where
  loc : Loc
  tile : String
  sensorNum : Option Nat
  sensorDir : Option String
deriving Repr

/-- Belief-tracking fields of `MazeAgent`. -/
structure AgentState where
  kb : MazeKnowledgeBase
  possible_pits : List Loc
  safe_tiles : List Loc
  pit_tiles : List Loc
  dead_tiles : List Loc
  goal : Loc
deriving DecidableEq, Repr

/-- `s.add(loc)` on a Python `set` of locations. -/
def locAdd (s : List Loc) (l : Loc) : List Loc :=
  if s.contains l then s else s ++ [l]

/-- Unit clause `P(loc) = tv`, the shape every fact clause in the agent
takes. -/
def unitClause (loc : Loc) (tv : Bool) : MazeClause :=
  mkClause [((("P" : String), loc), tv)]

/-- `MazeAgent._check_goal_safety_constraints`.  The length comparison is on
Python ints, hence over `Int` here. -/
def checkGoalSafetyConstraints (env : Env) (s : AgentState) : AgentState :=
  let goalAdjacent := env.cardinalLocs s.goal 1
  let knownPitsAroundGoal := goalAdjacent.filter (fun l => s.pit_tiles.contains l)
  let unknownAroundGoal := goalAdjacent.filter
    (fun l => !s.safe_tiles.contains l && !s.pit_tiles.contains l)
  if (knownPitsAroundGoal.length : Int) = (goalAdjacent.length : Int) - 1 ∧
      unknownAroundGoal.length = 1 then
    match unknownAroundGoal with
    | safeTile :: _ =>
      { s with safe_tiles := locAdd s.safe_tiles safeTile,
               kb := s.kb.tell (unitClause safeTile false) }
    | [] => s
  else s

/-- `MazeAgent._deduce_tile_states_from_constraints`. -/
def deduceTileStates (s : AgentState) (scannedTiles : List Loc) : AgentState :=
  scannedTiles.foldl
    (fun st tile =>
      if st.safe_tiles.contains tile || st.pit_tiles.contains tile then st
      else if st.kb.ask (unitClause tile false) then
        { st with safe_tiles := locAdd st.safe_tiles tile }
      else if st.kb.ask (unitClause tile true) then
        { st with pit_tiles := locAdd st.pit_tiles tile }
      else st)
    s

/-- `itertools.combinations(l, k)`: the length-`k` sublists of `l` in
lexicographic position order. -/
def combinations : Nat → List Loc → List (List Loc)
  | 0, _ => [[]]
  | _ + 1, [] => []
  | k + 1, x :: rest =>
    (combinations k rest).map (fun c => x :: c) ++ combinations (k + 1) rest
termination_by k l => (l, k)

/-- `MazeAgent._create_pit_constraint_clauses`.  Python computes the
at-least combination size as `total_tiles - pit_count + 1`; its call sites
have `pit_count < total_tiles`, for which the `Nat` expression
`total + 1 - pitCount` agrees with the Python int arithmetic. -/
def createPitConstraintClauses (s : AgentState) (scannedTiles : List Loc)
    (pitCount : Nat) : AgentState :=
  let totalTiles := scannedTiles.length
  let s1 :=
    if pitCount > 0 then
      (combinations (totalTiles + 1 - pitCount) scannedTiles).foldl
        (fun st pitCombination =>
          let clauseProps := pitCombination.map (fun t => ((("P" : String), t), true))
          if clauseProps.length ≠ 0 then
            { st with kb := st.kb.tell (mkClause clauseProps) }
          else st)
        s
    else s
  if pitCount < totalTiles then
    (combinations (pitCount + 1) scannedTiles).foldl
      (fun st safeCombination =>
        let clauseProps := safeCombination.map (fun t => ((("P" : String), t), false))
        if clauseProps.length ≠ 0 then
          { st with kb := st.kb.tell (mkClause clauseProps) }
        else st)
      s1
  else s1

/-- The clause-installing part of `MazeAgent._add_pit_constraint`
(`possible_pits` tracking plus the three `pit_count` branches, lines
294-315), before the method goes on to re-derive facts and check the goal
invariant. -/
def addPitConstraintInstall (s : AgentState) (scannedTiles : List Loc)
    (pitCount : Nat) : AgentState :=
  let s0 := scannedTiles.foldl
    (fun st tile =>
      if !st.safe_tiles.contains tile && !st.pit_tiles.contains tile &&
          pitCount != 0 then
        { st with possible_pits := locAdd st.possible_pits tile }
      else st)
    s
  if pitCount == 0 then
    scannedTiles.foldl
      (fun st tile =>
        if !st.safe_tiles.contains tile && !st.pit_tiles.contains tile then
          { st with kb := st.kb.tell (unitClause tile false) }
        else st)
      s0
  else if pitCount == scannedTiles.length then
    scannedTiles.foldl
      (fun st tile =>
        if !st.pit_tiles.contains tile then
          { st with kb := st.kb.tell (unitClause tile true) }
        else st)
      s0
  else
    createPitConstraintClauses s0 scannedTiles pitCount

/-- `MazeAgent._add_pit_constraint`: install the constraint clauses, then
deduce individual tile states, then check the goal-safety invariant. -/
def addPitConstraint (env : Env) (s : AgentState) (scannedTiles : List Loc)
    (pitCount : Nat) : AgentState :=
  checkGoalSafetyConstraints env
    (deduceTileStates (addPitConstraintInstall s scannedTiles pitCount)
      scannedTiles)

/-- `MazeAgent._process_scanner_reading`; `Constants.get_sensor_range()` is
3. -/
def processScannerReading (env : Env) (s : AgentState) (currentLoc : Loc)
    (sensorNum : Nat) (sensorDir : String) : AgentState :=
  let scannedTiles := env.directionalLocs currentLoc sensorDir 3
  if sensorNum == 0 then
    scannedTiles.foldl
      (fun st tile =>
        if !st.safe_tiles.contains tile && !st.pit_tiles.contains tile then
          { st with safe_tiles := locAdd st.safe_tiles tile,
                    kb := st.kb.tell (unitClause tile false) }
        else st)
      s
  else
    addPitConstraint env s scannedTiles sensorNum

/-- The belief-updating portion of `MazeAgent.think` (lines 129-178): process
the current tile type, process any scanner reading, and apply the dead-tile
bookkeeping.  The remainder of `think` only reads the belief sets to choose
a `Move` and is modelled separately by the path functions below. -/
def thinkUpdate (env : Env) (s : AgentState) (p : Perception) : AgentState :=
  let s1 :=
    if p.tile == "P" then
      { s with pit_tiles := locAdd s.pit_tiles p.loc,
               kb := s.kb.tell (unitClause p.loc true) }
    else if p.tile == "." || p.tile == "G" then
      { s with safe_tiles := locAdd s.safe_tiles p.loc,
               kb := s.kb.tell (unitClause p.loc false) }
    else s
  match p.sensorNum, p.sensorDir with
  | some sensorNum, some sensorDir =>
    let s2 := processScannerReading env s1 p.loc sensorNum sensorDir
    if sensorNum > 0 then
      let s3 :=
        match env.directionalLocs p.loc sensorDir 1 with
        | [] => s2
        | firstTile :: _ =>
          { s2 with dead_tiles := locAdd s2.dead_tiles firstTile }
      { s3 with
        safe_tiles := s3.safe_tiles.filter (fun t => !s3.dead_tiles.contains t) }
    else s2
  | _, _ => s1

/-- `MazeKnowledgeBase.ask` as a state transformer: the method reads
`self.clauses` into the local `working_clauses` copy and never assigns to
`self`, so the knowledge base it leaves behind is the one it received. -/
def MazeKnowledgeBase.askOp (kb : MazeKnowledgeBase) (query : MazeClause) :
    Bool × MazeKnowledgeBase :=
  (kb.ask query, kb)

/-- `MazeAgent.is_safe_tile` as a state transformer on the agent state, with
each `ask` call threaded through `askOp`. -/
def isSafeTile (s : AgentState) (loc : Loc) : Option Bool × AgentState :=
  if s.safe_tiles.contains loc then (some true, s)
  else if s.pit_tiles.contains loc then (some false, s)
  else
    let (safeResult, kb1) := s.kb.askOp (unitClause loc false)
    let s1 := { s with kb := kb1 }
    if safeResult then (some true, s1)
    else
      let (pitResult, kb2) := s1.kb.askOp (unitClause loc true)
      let s2 := { s1 with kb := kb2 }
      if pitResult then (some false, s2) else (none, s2)

/-! ### BFS path search (`get_quickest_path_to_goal` and its
horizontal-priority twin) -/

/-- The inner `for dx, dy in directions` loop of the BFS: either returns the
found path (`some path`, the early `return new_path`), or the queue and
visited set after expanding the current node. -/
def bfsExpand (playable pits dead : List Loc) (goal : Loc) (currentLoc : Loc)
    (path : List Loc) :
    List (Int × Int) → List (Loc × List Loc) → List Loc →
    Option (List Loc) × List (Loc × List Loc) × List Loc
  | [], queue, visited => (none, queue, visited)
  | (dx, dy) :: dirs, queue, visited =>
    let nextLoc : Loc := (currentLoc.1 + dx, currentLoc.2 + dy)
    if visited.contains nextLoc || !playable.contains nextLoc then
      bfsExpand playable pits dead goal currentLoc path dirs queue visited
    else if pits.contains nextLoc || dead.contains nextLoc then
      bfsExpand playable pits dead goal currentLoc path dirs queue visited
    else
      let newPath := path ++ [nextLoc]
      if nextLoc == goal then (some newPath, queue, visited)
      else
        bfsExpand playable pits dead goal currentLoc path dirs
          (queue ++ [(nextLoc, newPath)]) (visited ++ [nextLoc])

/-- The `while queue` loop of the BFS, indexed by fuel.  Every node ever
queued carries a distinct playable location into `visited`, so
`playable.length + 1` iterations are more than the Python loop can
perform. -/
def bfsLoop (playable pits dead : List Loc) (goal : Loc)
    (dirs : List (Int × Int)) :
    Nat → List (Loc × List Loc) → List Loc → List Loc
  | 0, _, _ => []
  | _ + 1, [], _ => []
  | fuel + 1, (currentLoc, path) :: queueRest, visited =>
    match bfsExpand playable pits dead goal currentLoc path dirs queueRest
        visited with
    | (some found, _, _) => found
    | (none, queue', visited') =>
      bfsLoop playable pits dead goal dirs fuel queue' visited'

/-- Shared body of the two path methods; they differ only in the direction
list, which each wrapper passes explicitly. -/
def quickestPath (playable pits dead : List Loc) (goal : Loc)
    (dirs : List (Int × Int)) (startLoc : Loc) : List Loc :=
  if startLoc == goal then [goal]
  else
    bfsLoop playable pits dead goal dirs (playable.length + 1)
      [(startLoc, [startLoc])] [startLoc]

/-- `MazeAgent.get_quickest_path_to_goal`: direction order Up, Down, Left,
Right. -/
def getQuickestPathToGoal (env : Env) (s : AgentState) (startLoc : Loc) :
    List Loc :=
  quickestPath env.playableLocs s.pit_tiles s.dead_tiles s.goal
    [(0, -1), (0, 1), (-1, 0), (1, 0)] startLoc

/-- `MazeAgent.get_quickest_path_to_goal_horizontal_priority`: direction
order Left, Right, Up, Down. -/
def getQuickestPathToGoalHorizontalPriority (env : Env) (s : AgentState)
    (startLoc : Loc) : List Loc :=
  quickestPath env.playableLocs s.pit_tiles s.dead_tiles s.goal
    [(-1, 0), (1, 0), (0, -1), (0, 1)] startLoc

/-! ### Specification-side predicates -/

/-- The representation invariant every clause built by `MazeClause.__init__`
carries: the prop dict has unique keys, and a valid clause has had its props
cleared. -/
def ClauseWF (c : MazeClause) : Prop :=
  (c.props.map Prod.fst).Nodup ∧ (c.valid = true → c.props = [])

instance (c : MazeClause) : Decidable (ClauseWF c) := by
  unfold ClauseWF; infer_instance

/-- Every clause stored in the knowledge base is well formed. -/
def KBWF (kb : MazeKnowledgeBase) : Prop :=
  ∀ c ∈ kb.clauses, ClauseWF c

instance (kb : MazeKnowledgeBase) : Decidable (KBWF kb) :=
  List.decidableBAll _ kb.clauses

/-- Clauses `c1` and `c2` disagree on proposition `p`: both contain `p`,
mapped to complementary truth values. -/
def DisagreeOn (c1 c2 : MazeClause) (p : MazeProp) : Prop :=
  ∃ v, c1.get_prop p = some v ∧ c2.get_prop p = some (!v)

instance (c1 c2 : MazeClause) (p : MazeProp) : Decidable (DisagreeOn c1 c2 p) := by
  unfold DisagreeOn; infer_instance

/-- Membership in a clause set up to `MazeClause.__eq__`. -/
def mcMem (c : MazeClause) (s : List MazeClause) : Prop :=
  ∃ c' ∈ s, mcEq c c' = true

instance (c : MazeClause) (s : List MazeClause) : Decidable (mcMem c s) :=
  List.decidableBEx _ s

/-- A dict's keys are distinct (true of every Python dict). -/
def NodupKeys (d : List (MazeProp × Bool)) : Prop := (d.map Prod.fst).Nodup

instance (d : List (MazeProp × Bool)) : Decidable (NodupKeys d) := by
  unfold NodupKeys; infer_instance

/-- First-defined-wins choice between two optional truth values. -/
def optOr (a b : Option Bool) : Option Bool :=
  match a with
  | some v => some v
  | none => b

/-- The "at least one of these tiles is a pit" clause over a tile list. -/
def pitClauseOf (tiles : List Loc) : MazeClause :=
  mkClause (tiles.map (fun t => ((("P" : String), t), true)))

/-- The "at least one of these tiles is safe" clause over a tile list. -/
def safeClauseOf (tiles : List Loc) : MazeClause :=
  mkClause (tiles.map (fun t => ((("P" : String), t), false)))

/-! ### Association-list (Python dict) lemmas -/

theorem optOr_some (v : Bool) (b : Option Bool) : optOr (some v) b = some v := rfl

theorem optOr_none (b : Option Bool) : optOr none b = b := rfl

theorem nodupKeys_nil : NodupKeys [] := by simp [NodupKeys]

theorem nodupKeys_cons {k : MazeProp} {v : Bool}
    {rest : List (MazeProp × Bool)} :
    NodupKeys ((k, v) :: rest) ↔ (∀ w ∈ rest, k ≠ w.1) ∧ NodupKeys rest := by
  unfold NodupKeys
  rw [List.map_cons, List.nodup_cons]
  constructor
  · rintro ⟨h1, h2⟩
    refine ⟨fun w hw hk => h1 ?_, h2⟩
    exact List.mem_map.2 ⟨w, hw, hk.symm⟩
  · rintro ⟨h1, h2⟩
    refine ⟨fun hmem => ?_, h2⟩
    obtain ⟨w, hw, hwk⟩ := List.mem_map.1 hmem
    exact h1 w hw hwk.symm

theorem dictGet_eq_none {d : List (MazeProp × Bool)} {q : MazeProp} :
    dictGet d q = none ↔ ∀ v, (q, v) ∉ d := by
  induction d with
  | nil => simp [dictGet]
  | cons kv rest ih =>
    obtain ⟨k, v'⟩ := kv
    by_cases h : k = q
    · subst h
      simp only [dictGet, if_pos rfl]
      constructor
      · intro hc; exact absurd hc (by simp)
      · intro hall; exact absurd (List.mem_cons_self _ _) (hall v')
    · simp only [dictGet, if_neg h]
      rw [ih]
      constructor
      · intro hall v hv
        rcases List.mem_cons.1 hv with heq | hmem
        · exact h (congrArg Prod.fst heq).symm
        · exact hall v hmem
      · intro hall v hv
        exact hall v (List.mem_cons_of_mem _ hv)

theorem mem_of_dictGet_eq_some {d : List (MazeProp × Bool)} {q : MazeProp}
    {v : Bool} (h : dictGet d q = some v) : (q, v) ∈ d := by
  induction d with
  | nil => exact absurd h (by simp [dictGet])
  | cons kv rest ih =>
    obtain ⟨k, v'⟩ := kv
    by_cases hk : k = q
    · subst hk
      simp only [dictGet, if_true, eq_self_iff_true, Option.some.injEq] at h
      subst h
      exact List.mem_cons_self _ _
    · simp only [dictGet, if_neg hk] at h
      exact List.mem_cons_of_mem _ (ih h)

theorem dictGet_eq_some_of_mem {d : List (MazeProp × Bool)} {q : MazeProp}
    {v : Bool} (hnd : NodupKeys d) (h : (q, v) ∈ d) : dictGet d q = some v := by
  induction d with
  | nil => exact absurd h (by simp)
  | cons kv rest ih =>
    obtain ⟨k, v'⟩ := kv
    rw [nodupKeys_cons] at hnd
    rcases List.mem_cons.1 h with heq | hmem
    · injection heq with h1 h2
      subst h1; subst h2
      simp [dictGet]
    · have hkq : ¬ k = q := hnd.1 (q, v) hmem
      simp only [dictGet, if_neg hkq]
      exact ih hnd.2 hmem

theorem dictGet_dictInsert (d : List (MazeProp × Bool)) (k : MazeProp)
    (v : Bool) (q : MazeProp) :
    dictGet (dictInsert d k v) q = if k = q then some v else dictGet d q := by
  induction d with
  | nil => by_cases h : k = q <;> simp [dictInsert, dictGet, h]
  | cons kv rest ih =>
    obtain ⟨k', v'⟩ := kv
    by_cases hk : k' = k
    · subst hk
      by_cases hq : k' = q
      · subst hq; simp [dictInsert, dictGet]
      · simp [dictInsert, dictGet, hq]
    · by_cases hq : k' = q
      · subst hq
        have hkq : ¬ k = k' := fun h => hk h.symm
        simp [dictInsert, if_neg hk, dictGet, if_neg hkq]
      · simp only [dictInsert, if_neg hk, dictGet, if_neg hq]
        exact ih

theorem mem_dictInsert {d : List (MazeProp × Bool)} {k : MazeProp} {v : Bool}
    {w : MazeProp × Bool} (hw : w ∈ dictInsert d k v) : w ∈ d ∨ w.1 = k := by
  induction d with
  | nil =>
    simp only [dictInsert, List.mem_singleton] at hw
    right; rw [hw]
  | cons kv rest ih =>
    obtain ⟨k', v'⟩ := kv
    by_cases hk : k' = k
    · subst hk
      simp only [dictInsert, if_true, eq_self_iff_true] at hw
      rcases List.mem_cons.1 hw with heq | hmem
      · right; rw [heq]
      · left; exact List.mem_cons_of_mem _ hmem
    · simp only [dictInsert, if_neg hk] at hw
      rcases List.mem_cons.1 hw with heq | hmem
      · left; rw [heq]; exact List.mem_cons_self _ _
      · rcases ih hmem with hin | hkey
        · left; exact List.mem_cons_of_mem _ hin
        · right; exact hkey

theorem nodupKeys_dictInsert {d : List (MazeProp × Bool)} (k : MazeProp)
    (v : Bool) (hnd : NodupKeys d) : NodupKeys (dictInsert d k v) := by
  induction d with
  | nil => simp [dictInsert, NodupKeys]
  | cons kv rest ih =>
    obtain ⟨k', v'⟩ := kv
    rw [nodupKeys_cons] at hnd
    by_cases hk : k' = k
    · subst hk
      simp only [dictInsert, if_true, eq_self_iff_true]
      rw [nodupKeys_cons]
      exact hnd
    · simp only [dictInsert, if_neg hk]
      rw [nodupKeys_cons]
      refine ⟨fun w hw => ?_, ih hnd.2⟩
      rcases mem_dictInsert hw with hin | hkey
      · exact hnd.1 w hin
      · rw [hkey]; exact hk

theorem dictRemove_sublist (d : List (MazeProp × Bool)) (k : MazeProp) :
    (dictRemove d k).Sublist d := by
  induction d with
  | nil => exact List.Sublist.refl _
  | cons kv rest ih =>
    obtain ⟨k', v'⟩ := kv
    by_cases hk : k' = k
    · simp only [dictRemove, if_pos hk]
      exact List.sublist_cons_self _ _
    · simp only [dictRemove, if_neg hk]
      exact ih.cons₂ _

theorem nodupKeys_sublist {d1 d2 : List (MazeProp × Bool)}
    (hs : d1.Sublist d2) (hnd : NodupKeys d2) : NodupKeys d1 :=
  List.Nodup.sublist (List.Sublist.map Prod.fst hs) hnd

theorem dictGet_dictRemove {d : List (MazeProp × Bool)} {k q : MazeProp}
    (hnd : NodupKeys d) :
    dictGet (dictRemove d k) q = if k = q then none else dictGet d q := by
  induction d with
  | nil => by_cases h : k = q <;> simp [dictRemove, dictGet, h]
  | cons kv rest ih =>
    obtain ⟨k', v'⟩ := kv
    rw [nodupKeys_cons] at hnd
    by_cases hk : k' = k
    · subst hk
      simp only [dictRemove, if_true, eq_self_iff_true]
      by_cases hq : k' = q
      · subst hq
        rw [if_pos rfl, dictGet_eq_none]
        intro v hv
        exact hnd.1 (k', v) hv rfl
      · rw [if_neg hq]
        simp only [dictGet, if_neg hq]
    · simp only [dictRemove, if_neg hk]
      by_cases hq : k' = q
      · subst hq
        have hkq : ¬ k = k' := fun h => hk h.symm
        rw [if_neg hkq]
        simp [dictGet]
      · simp only [dictGet, if_neg hq]
        exact ih hnd.2

theorem dictUpdateAll_get {items : List (MazeProp × Bool)}
    (hnd : NodupKeys items) (d : List (MazeProp × Bool)) (q : MazeProp) :
    dictGet (dictUpdateAll d items) q = optOr (dictGet items q) (dictGet d q) := by
  induction items generalizing d with
  | nil => simp [dictUpdateAll, dictGet, optOr]
  | cons kv rest ih =>
    obtain ⟨k, v⟩ := kv
    rw [nodupKeys_cons] at hnd
    have step : dictUpdateAll d ((k, v) :: rest) =
        dictUpdateAll (dictInsert d k v) rest := rfl
    rw [step, ih hnd.2]
    by_cases hq : k = q
    · subst hq
      have hrest : dictGet rest k = none := by
        rw [dictGet_eq_none]
        intro v' hv'
        exact hnd.1 (k, v') hv' rfl
      rw [dictGet_dictInsert, if_pos rfl, hrest]
      simp [dictGet, optOr_none, optOr_some]
    · rw [dictGet_dictInsert, if_neg hq]
      simp only [dictGet, if_neg hq]

theorem nodupKeys_dictUpdateAll {d : List (MazeProp × Bool)}
    (items : List (MazeProp × Bool)) (hnd : NodupKeys d) :
    NodupKeys (dictUpdateAll d items) := by
  induction items generalizing d with
  | nil => exact hnd
  | cons kv rest ih => exact ih (nodupKeys_dictInsert kv.1 kv.2 hnd)

theorem mkClauseAux_of_nodup {l : List (MazeProp × Bool)}
    (acc : List (MazeProp × Bool)) (hnd : NodupKeys (acc ++ l)) :
    mkClauseAux acc l = ⟨acc ++ l, false⟩ := by
  induction l generalizing acc with
  | nil => simp [mkClauseAux]
  | cons kv rest ih =>
    obtain ⟨p, tv⟩ := kv
    have hdisj : (acc.map Prod.fst).Disjoint (((p, tv) :: rest).map Prod.fst) := by
      have := (List.nodup_append.1 (by
        simpa [NodupKeys, List.map_append] using hnd)).2.2
      exact this
    have hget : dictGet acc p = none := by
      rw [dictGet_eq_none]
      intro v hv
      exact hdisj (List.mem_map_of_mem _ hv) (by simp)
    simp only [mkClauseAux, hget]
    have hre : acc ++ (p, tv) :: rest = (acc ++ [(p, tv)]) ++ rest := by simp
    rw [hre] at hnd ⊢
    exact ih (acc ++ [(p, tv)]) hnd

theorem mkClause_of_nodup {l : List (MazeProp × Bool)}
    (hnd : NodupKeys l) : mkClause l = ⟨l, false⟩ := by
  have := @mkClauseAux_of_nodup l [] (by simpa)
  simpa [mkClause] using this

theorem optOr_none_right (a : Option Bool) : optOr a none = a := by
  cases a <;> rfl

/-! ### Clause equality (`MazeClause.__eq__`) lemmas -/

theorem itemsSubset_iff {l1 l2 : List (MazeProp × Bool)} :
    itemsSubset l1 l2 = true ↔ ∀ x ∈ l1, x ∈ l2 := by
  simp [itemsSubset, List.all_eq_true]

theorem mcEq_iff {c1 c2 : MazeClause} :
    mcEq c1 c2 = true ↔
      ((∀ x ∈ c1.props, x ∈ c2.props) ∧ ∀ x ∈ c2.props, x ∈ c1.props) ∧
        c1.valid = c2.valid := by
  simp [mcEq, itemsSubset_iff, Bool.and_eq_true, and_assoc]

theorem mcEq_refl (c : MazeClause) : mcEq c c = true := by
  rw [mcEq_iff]
  exact ⟨⟨fun x h => h, fun x h => h⟩, rfl⟩

theorem mcEq_symm {c1 c2 : MazeClause} (h : mcEq c1 c2 = true) :
    mcEq c2 c1 = true := by
  rw [mcEq_iff] at h ⊢
  exact ⟨⟨h.1.2, h.1.1⟩, h.2.symm⟩

theorem mcEq_trans {c1 c2 c3 : MazeClause} (h1 : mcEq c1 c2 = true)
    (h2 : mcEq c2 c3 = true) : mcEq c1 c3 = true := by
  rw [mcEq_iff] at h1 h2 ⊢
  exact ⟨⟨fun x hx => h2.1.1 x (h1.1.1 x hx),
          fun x hx => h1.1.2 x (h2.1.2 x hx)⟩, h1.2.trans h2.2⟩

theorem unitClause_def (loc : Loc) (tv : Bool) :
    unitClause loc tv = ⟨[((("P" : String), loc), tv)], false⟩ := rfl

theorem eq_unitClause_of_mcEq {c : MazeClause} {loc : Loc} {tv : Bool}
    (hwf : ClauseWF c) (h : mcEq c (unitClause loc tv) = true) :
    c = unitClause loc tv := by
  rw [mcEq_iff, unitClause_def] at h
  obtain ⟨⟨hsub, hsup⟩, hval⟩ := h
  have hmem : ((("P" : String), loc), tv) ∈ c.props := by
    apply hsup; simp
  have hall : ∀ x ∈ c.props, x = ((("P" : String), loc), tv) := by
    intro x hx
    have := hsub x hx
    simpa using this
  have hprops : c.props = [((("P" : String), loc), tv)] := by
    obtain ⟨x, rest, hx⟩ : ∃ x rest, c.props = x :: rest := by
      cases hc : c.props with
      | nil => rw [hc] at hmem; cases hmem
      | cons y ys => exact ⟨y, ys, rfl⟩
    have hx1 : x = ((("P" : String), loc), tv) := hall x (hx ▸ List.mem_cons_self _ _)
    have hrest : rest = [] := by
      rw [List.eq_nil_iff_forall_not_mem]
      intro y hy
      have hy1 : y = ((("P" : String), loc), tv) :=
        hall y (hx ▸ List.mem_cons_of_mem _ hy)
      have hnd := hwf.1
      rw [hx, hx1] at hnd
      have hne := (nodupKeys_cons.1 hnd).1 y hy
      rw [hy1] at hne
      exact hne rfl
    rw [hx, hx1, hrest]
  cases c with
  | mk props valid =>
    simp only at hprops hval
    rw [unitClause_def]
    simp [hprops, hval]

/-! ### Resolution (`MazeClause.resolve`) lemmas -/

theorem filterMap_sublist_map {α β : Type} (f : α → Option β) (g : α → β)
    (hf : ∀ a b, f a = some b → b = g a) (l : List α) :
    (l.filterMap f).Sublist (l.map g) := by
  induction l with
  | nil => simp
  | cons a rest ih =>
    rw [List.filterMap_cons, List.map_cons]
    cases hfa : f a with
    | none => exact ih.trans (List.sublist_cons_self _ _)
    | some b =>
      rw [hf a b hfa]
      exact ih.cons₂ _

theorem mem_oppositeProps {c1 c2 : MazeClause} (hwf1 : ClauseWF c1)
    {q : MazeProp} : q ∈ oppositeProps c1 c2 ↔ DisagreeOn c1 c2 q := by
  unfold oppositeProps
  rw [List.mem_filterMap]
  constructor
  · rintro ⟨⟨p, v⟩, hmem, hf⟩
    cases hg : dictGet c2.props p with
    | none => simp only [hg] at hf; cases hf
    | some v2 =>
      simp only [hg] at hf
      by_cases hne : v ≠ v2
      · rw [if_pos hne, Option.some.injEq] at hf
        subst hf
        refine ⟨v, dictGet_eq_some_of_mem hwf1.1 hmem, ?_⟩
        have hne2 : v2 = !v := by cases v <;> cases v2 <;> simp_all
        rw [MazeClause.get_prop, hg, hne2]
      · rw [if_neg hne] at hf; cases hf
  · rintro ⟨v, hc1, hc2⟩
    refine ⟨(q, v), mem_of_dictGet_eq_some hc1, ?_⟩
    rw [MazeClause.get_prop] at hc2
    simp only [hc2]
    rw [if_pos (by cases v <;> simp)]

theorem nodup_oppositeProps {c1 c2 : MazeClause} (hwf1 : ClauseWF c1) :
    (oppositeProps c1 c2).Nodup := by
  refine List.Nodup.sublist ?_ hwf1.1
  unfold oppositeProps
  refine filterMap_sublist_map _ _ ?_ _
  intro pv q hf
  cases hg : dictGet c2.props pv.1 with
  | none => simp only [hg] at hf; cases hf
  | some v2 =>
    simp only [hg] at hf
    by_cases hne : pv.2 ≠ v2
    · rw [if_pos hne, Option.some.injEq] at hf; exact hf.symm
    · rw [if_neg hne] at hf; cases hf

theorem eq_singleton_of_mem_unique {α : Type} {l : List α} {a : α}
    (hnd : l.Nodup) (ha : a ∈ l) (huniq : ∀ b ∈ l, b = a) : l = [a] := by
  cases l with
  | nil => cases ha
  | cons b rest =>
    have hb : b = a := huniq b (List.mem_cons_self _ _)
    subst hb
    have hrest : rest = [] := by
      rw [List.eq_nil_iff_forall_not_mem]
      intro c hc
      have : c = b := huniq c (List.mem_cons_of_mem _ hc)
      rw [List.nodup_cons] at hnd
      exact hnd.1 (this ▸ hc)
    rw [hrest]

theorem resolve_single_disagreement {c1 c2 : MazeClause} {p : MazeProp}
    (hwf1 : ClauseWF c1) (hwf2 : ClauseWF c2)
    (hne : mcEq c1 c2 = false) (hv1 : c1.valid = false)
    (hv2 : c2.valid = false) (hd : DisagreeOn c1 c2 p)
    (huniq : ∀ q, DisagreeOn c1 c2 q → q = p) :
    ∃ r, MazeClause.resolve c1 c2 = [r] ∧ r.valid = false ∧
      r.get_prop p = none ∧
      ∀ q, q ≠ p → r.get_prop q = optOr (c1.get_prop q) (c2.get_prop q) := by
  have hopp : oppositeProps c1 c2 = [p] := by
    refine eq_singleton_of_mem_unique (nodup_oppositeProps hwf1)
      ((mem_oppositeProps hwf1).2 hd) ?_
    intro q hq
    exact huniq q ((mem_oppositeProps hwf1).1 hq)
  have hnd1 : NodupKeys (dictRemove c1.props p) :=
    nodupKeys_sublist (dictRemove_sublist _ _) hwf1.1
  have hnd2 : NodupKeys (dictRemove c2.props p) :=
    nodupKeys_sublist (dictRemove_sublist _ _) hwf2.1
  have hndRed : NodupKeys
      (dictUpdateAll (dictUpdateAll [] (dictRemove c1.props p))
        (dictRemove c2.props p)) :=
    nodupKeys_dictUpdateAll _ (nodupKeys_dictUpdateAll _ nodupKeys_nil)
  have hmk := mkClause_of_nodup hndRed
  have hget : ∀ q, dictGet
      (dictUpdateAll (dictUpdateAll [] (dictRemove c1.props p))
        (dictRemove c2.props p)) q =
      optOr (if p = q then none else dictGet c2.props q)
        (if p = q then none else dictGet c1.props q) := by
    intro q
    rw [dictUpdateAll_get hnd2, dictUpdateAll_get hnd1,
      dictGet_dictRemove hwf1.1, dictGet_dictRemove hwf2.1]
    by_cases hq : p = q
    · simp [hq, optOr, dictGet]
    · simp only [if_neg hq]
      rw [show dictGet [] q = none from rfl, optOr_none_right]
  refine ⟨mkClause (dictUpdateAll (dictUpdateAll [] (dictRemove c1.props p))
      (dictRemove c2.props p)), ?_, ?_, ?_, ?_⟩
  · rw [MazeClause.resolve]
    rw [hne, hv1, hv2]
    simp only [Bool.or_self, Bool.or_false, Bool.false_or, if_false,
      Bool.false_eq_true, hopp]
    rw [hmk]
    simp
  · rw [hmk]
  · rw [hmk]
    show dictGet _ p = none
    rw [hget p]
    rw [if_pos rfl, if_pos rfl, optOr_none]
  · intro q hq
    rw [hmk]
    show dictGet _ q = optOr (dictGet c1.props q) (dictGet c2.props q)
    rw [hget q]
    have hpq : ¬ p = q := fun h => hq h.symm
    rw [if_neg hpq, if_neg hpq]
    cases hg1 : dictGet c1.props q with
    | none => rw [optOr_none, optOr_none_right]
    | some v1 =>
      cases hg2 : dictGet c2.props q with
      | none => rw [optOr_none, optOr_some]
      | some v2 =>
        have hvv : v1 = v2 := by
          by_contra hvne
          have : DisagreeOn c1 c2 q := by
            refine ⟨v1, hg1, ?_⟩
            have hvne2 : v2 = !v1 := by cases v1 <;> cases v2 <;> simp_all
            show dictGet c2.props q = some (!v1)
            rw [hg2, hvne2]
          exact hq (huniq q this)
        rw [hvv, optOr_some]

theorem resolve_of_no_single_disagreement {c1 c2 : MazeClause}
    (hwf1 : ClauseWF c1)
    (h : (∀ q, ¬ DisagreeOn c1 c2 q) ∨
      ∃ q r, q ≠ r ∧ DisagreeOn c1 c2 q ∧ DisagreeOn c1 c2 r) :
    MazeClause.resolve c1 c2 = [] := by
  by_cases hcond : (mcEq c1 c2 || c1.valid || c2.valid) = true
  · rw [MazeClause.resolve, if_pos hcond]
  · rcases h with hzero | ⟨q, r, hqr, hq, hr⟩
    · have hopp : oppositeProps c1 c2 = [] := by
        rw [List.eq_nil_iff_forall_not_mem]
        intro q hq
        exact hzero q ((mem_oppositeProps hwf1).1 hq)
      rw [MazeClause.resolve, if_neg hcond, hopp]
    · rcases hl : oppositeProps c1 c2 with _ | ⟨p1, _ | ⟨p2, rest⟩⟩
      · rw [MazeClause.resolve, if_neg hcond, hl]
      · exfalso
        have hq1 : q = p1 := by
          have := (mem_oppositeProps hwf1).2 hq
          rw [hl] at this
          simpa using this
        have hr1 : r = p1 := by
          have := (mem_oppositeProps hwf1).2 hr
          rw [hl] at this
          simpa using this
        exact hqr (hq1.trans hr1.symm)
      · rw [MazeClause.resolve, if_neg hcond, hl]

theorem resolve_self (c : MazeClause) : MazeClause.resolve c c = [] := by
  rw [MazeClause.resolve, if_pos]
  rw [mcEq_refl]
  simp

theorem resolve_of_valid {c1 c2 : MazeClause}
    (h : c1.valid = true ∨ c2.valid = true) :
    MazeClause.resolve c1 c2 = [] := by
  rw [MazeClause.resolve, if_pos]
  rcases h with h | h <;> rw [h] <;> simp

/-- C1: for well-formed clauses, if `c1` and `c2` are not identical, neither
is valid, and they share exactly one proposition on which they disagree,
then `resolve` returns exactly one clause: the union of all remaining
literals of both clauses (the shared proposition removed, every other
proposition keeping the truth value it has in whichever input defines it,
possibly yielding the empty clause).  With zero or two-or-more complementary
propositions `resolve` returns no clause, `resolve(c, c)` returns no clause,
and `resolve` on any valid input returns no clause. -/
theorem claim_C1 :
    (∀ c1 c2 p, ClauseWF c1 → ClauseWF c2 → mcEq c1 c2 = false →
      c1.valid = false → c2.valid = false → DisagreeOn c1 c2 p →
      (∀ q, DisagreeOn c1 c2 q → q = p) →
      ∃ r, MazeClause.resolve c1 c2 = [r] ∧ r.valid = false ∧
        r.get_prop p = none ∧
        ∀ q, q ≠ p → r.get_prop q = optOr (c1.get_prop q) (c2.get_prop q)) ∧
    (∀ c1 c2, ClauseWF c1 →
      ((∀ q, ¬ DisagreeOn c1 c2 q) ∨
        ∃ q r, q ≠ r ∧ DisagreeOn c1 c2 q ∧ DisagreeOn c1 c2 r) →
      MazeClause.resolve c1 c2 = []) ∧
    (∀ c, MazeClause.resolve c c = []) ∧
    (∀ c1 c2, c1.valid = true ∨ c2.valid = true →
      MazeClause.resolve c1 c2 = []) := by
  refine ⟨?_, ?_, resolve_self, ?_⟩
  · intro c1 c2 p hwf1 hwf2 hne hv1 hv2 hd huniq
    exact resolve_single_disagreement hwf1 hwf2 hne hv1 hv2 hd huniq
  · intro c1 c2 hwf1 h
    exact resolve_of_no_single_disagreement hwf1 h
  · intro c1 c2 h
    exact resolve_of_valid h

/-- Witness for C1 at concrete clauses `{A v B}` and `{~A v C}`, which
disagree exactly on `A` and resolve to `{B v C}`. -/
theorem claim_C1_witness :
    DisagreeOn ⟨[((("A" : String), ((0 : Int), (0 : Int))), true),
        ((("B" : String), ((0 : Int), (0 : Int))), true)], false⟩
      ⟨[((("A" : String), ((0 : Int), (0 : Int))), false),
        ((("C" : String), ((0 : Int), (0 : Int))), true)], false⟩
      ("A", (0, 0)) ∧
    ∃ r, MazeClause.resolve
        ⟨[((("A" : String), ((0 : Int), (0 : Int))), true),
          ((("B" : String), ((0 : Int), (0 : Int))), true)], false⟩
        ⟨[((("A" : String), ((0 : Int), (0 : Int))), false),
          ((("C" : String), ((0 : Int), (0 : Int))), true)], false⟩ = [r] ∧
      r.valid = false ∧ r.get_prop ("A", (0, 0)) = none ∧
      ∀ q, q ≠ ("A", (0, 0)) →
        r.get_prop q = optOr
          (MazeClause.get_prop ⟨[((("A" : String), ((0 : Int), (0 : Int))), true),
            ((("B" : String), ((0 : Int), (0 : Int))), true)], false⟩ q)
          (MazeClause.get_prop ⟨[((("A" : String), ((0 : Int), (0 : Int))), false),
            ((("C" : String), ((0 : Int), (0 : Int))), true)], false⟩ q) := by
  refine ⟨by decide, ?_⟩
  refine claim_C1.1 _ _ ("A", (0, 0)) (by decide) (by decide) (by decide)
    rfl rfl (by decide) ?_
  intro q hq
  obtain ⟨v, h1, h2⟩ := hq
  have hm := mem_of_dictGet_eq_some h1
  rcases List.mem_cons.1 hm with h | h
  · exact congrArg Prod.fst h
  · rcases List.mem_cons.1 h with h' | h'
    · exfalso
      have hqB : q = (("B" : String), ((0 : Int), (0 : Int))) :=
        congrArg Prod.fst h'
      rw [hqB] at h2
      cases v <;> exact absurd h2 (by decide)
    · exact absurd h' (by simp)

/-! ### Knowledge-base `ask` lemmas -/

theorem negateQuery_unit (loc : Loc) (tv : Bool) :
    negateQuery (unitClause loc tv) = unitClause loc (!tv) := rfl

theorem resolve_unit_compl (loc : Loc) (tv : Bool) :
    MazeClause.resolve (unitClause loc tv) (unitClause loc (!tv)) =
      [⟨[], false⟩] := by
  cases tv <;>
    simp [unitClause, MazeClause.resolve, mcEq, itemsSubset, oppositeProps,
      dictGet, dictRemove, dictUpdateAll, mkClause, mkClauseAux]

theorem askPass_none_of_empty (pairs : List (MazeClause × MazeClause))
    (h : ∃ pr ∈ pairs, ∃ r tail,
      MazeClause.resolve pr.1 pr.2 = r :: tail ∧ r.is_empty = true) :
    ∀ working adding, askPass working adding pairs = none := by
  induction pairs with
  | nil => simp at h
  | cons pr0 rest ih =>
    intro working adding
    obtain ⟨c1, c2⟩ := pr0
    cases hres : MazeClause.resolve c1 c2 with
    | nil =>
      have h' : ∃ pr ∈ rest, ∃ r tail,
          MazeClause.resolve pr.1 pr.2 = r :: tail ∧ r.is_empty = true := by
        obtain ⟨pr, hmem, r, tail, hr, he⟩ := h
        rcases List.mem_cons.1 hmem with heq | hmem'
        · exfalso
          rw [heq] at hr
          rw [hres] at hr
          cases hr
        · exact ⟨pr, hmem', r, tail, hr, he⟩
      simp only [askPass, hres]
      exact ih h' working adding
    | cons r0 tail0 =>
      by_cases hemp : r0.is_empty = true
      · simp only [askPass, hres]
        rw [if_pos hemp]
      · have h' : ∃ pr ∈ rest, ∃ r tail,
            MazeClause.resolve pr.1 pr.2 = r :: tail ∧ r.is_empty = true := by
          obtain ⟨pr, hmem, r, tail, hr, he⟩ := h
          rcases List.mem_cons.1 hmem with heq | hmem'
          · exfalso
            rw [heq] at hr
            rw [hres] at hr
            injection hr with h1 h2
            exact hemp (h1 ▸ he)
          · exact ⟨pr, hmem', r, tail, hr, he⟩
        simp only [askPass, hres]
        rw [if_neg hemp]
        exact ih h' _ _

theorem pairsOf_append_last {l : List MazeClause} {x a : MazeClause}
    (ha : a ∈ l) : (a, x) ∈ pairsOf (l ++ [x]) := by
  induction l with
  | nil => cases ha
  | cons b rest ih =>
    rw [List.cons_append, pairsOf]
    rcases List.mem_cons.1 ha with heq | hmem
    · subst heq
      apply List.mem_append_left
      exact List.mem_map.2 ⟨x, by simp, rfl⟩
    · exact List.mem_append_right _ (ih hmem)

theorem unit_mem_tell (kb : MazeKnowledgeBase) (loc : Loc) (tv : Bool)
    (hwf : KBWF kb) :
    unitClause loc tv ∈ (kb.tell (unitClause loc tv)).clauses := by
  show unitClause loc tv ∈ mcSetAdd kb.clauses (unitClause loc tv)
  unfold mcSetAdd
  by_cases h : mcElem (unitClause loc tv) kb.clauses = true
  · rw [if_pos h]
    unfold mcElem at h
    rw [List.any_eq_true] at h
    obtain ⟨c', hc', heq⟩ := h
    have hcu := eq_unitClause_of_mcEq (hwf c' hc') heq
    exact hcu ▸ hc'
  · rw [if_neg h]
    exact List.mem_append_right _ (List.mem_singleton.2 rfl)

theorem askLoop_true_of_pass_none {fuel : Nat} {working : List MazeClause}
    (hfuel : 0 < fuel)
    (h : askPass working false (pairsOf working) = none) :
    askLoop fuel working = true := by
  cases fuel with
  | zero => exact absurd hfuel (by simp)
  | succ n =>
    rw [askLoop, h]

theorem askLoop_false_of_pass_no_add {fuel : Nat}
    {working w' : List MazeClause} (hfuel : 0 < fuel)
    (h : askPass working false (pairsOf working) = some (w', false)) :
    askLoop fuel working = false := by
  cases fuel with
  | zero => rfl
  | succ n =>
    rw [askLoop, h]
    simp

/-- C2 (amended): telling the unit clause `{P(loc)=false}` makes a later ask
for `{P(loc)=false}` return true over every well-formed knowledge base, and
an ask for `{P(loc)=true}` returns false when the knowledge base was
previously empty.  (Over an arbitrary prior knowledge base the second part
is false: a knowledge base already containing `{P(loc)=true}` answers true,
see the counterexample.) -/
theorem claim_C2 :
    (∀ (kb : MazeKnowledgeBase) (loc : Loc), KBWF kb →
      (kb.tell (unitClause loc false)).ask (unitClause loc false) = true) ∧
    (∀ loc : Loc,
      ((⟨[]⟩ : MazeKnowledgeBase).tell (unitClause loc false)).ask
        (unitClause loc true) = false) := by
  constructor
  · intro kb loc hwf
    unfold MazeKnowledgeBase.ask
    apply askLoop_true_of_pass_none (by positivity)
    apply askPass_none_of_empty
    refine ⟨(unitClause loc false, negateQuery (unitClause loc false)),
      pairsOf_append_last (unit_mem_tell kb loc false hwf), ⟨[], false⟩, [],
      ?_, rfl⟩
    show MazeClause.resolve (unitClause loc false) (unitClause loc true) =
      [⟨[], false⟩]
    exact resolve_unit_compl loc false
  · intro loc
    have hw : (MazeKnowledgeBase.tell ⟨[]⟩ (unitClause loc false)).clauses ++
        [negateQuery (unitClause loc true)] =
        [unitClause loc false, unitClause loc false] := rfl
    unfold MazeKnowledgeBase.ask
    rw [hw]
    have hpair : pairsOf [unitClause loc false, unitClause loc false] =
        [(unitClause loc false, unitClause loc false)] := rfl
    have hpass : askPass [unitClause loc false, unitClause loc false] false
        (pairsOf [unitClause loc false, unitClause loc false]) =
        some ([unitClause loc false, unitClause loc false], false) := by
      rw [hpair]
      simp only [askPass, resolve_self]
    exact askLoop_false_of_pass_no_add (by positivity) hpass

/-- C2 counterexample: over a knowledge base already containing
`{P((0,0))=true}`, telling `{P((0,0))=false}` and asking `{P((0,0))=true}`
returns true, where the claim demands false. -/
theorem claim_C2_counterexample :
    ((⟨[unitClause ((0 : Int), (0 : Int)) true]⟩ : MazeKnowledgeBase).tell
        (unitClause (0, 0) false)).ask (unitClause (0, 0) false) = true ∧
    ((⟨[unitClause ((0 : Int), (0 : Int)) true]⟩ : MazeKnowledgeBase).tell
        (unitClause (0, 0) false)).ask (unitClause (0, 0) true) = true := by
  constructor <;> decide

/-- Witness for C2 at a concrete non-empty well-formed knowledge base (first
part) and a concrete location over the empty knowledge base (second part). -/
theorem claim_C2_witness :
    KBWF ⟨[unitClause ((5 : Int), (5 : Int)) true]⟩ ∧
    ((⟨[unitClause ((5 : Int), (5 : Int)) true]⟩ : MazeKnowledgeBase).tell
      (unitClause ((1 : Int), (2 : Int)) false)).ask
      (unitClause (1, 2) false) = true ∧
    ((⟨[]⟩ : MazeKnowledgeBase).tell (unitClause ((3 : Int), (3 : Int)) false)).ask
      (unitClause (3, 3) true) = false :=
  ⟨by decide, claim_C2.1 _ _ (by decide), claim_C2.2 _⟩

/-- C3: evaluation of the simplification at the failing input — the very
example in `simplify_self`'s docstring.  With stored clauses
`{P(1,1) v ~P(2,1)}` and `{~P(1,1) v P(1,2)}` and `(1,1)` a known pit, the
code deletes the first satisfied clause and then stops (the loop `break`s),
leaving `{~P(1,1) v P(1,2)}` unsimplified: the complementary literal
`~P(1,1)` is not resolved away and no resolvent `{P(1,2)}` replaces it,
where both the claim and the method's own docstring require the condensed
set. -/
theorem claim_C3 :
    MazeKnowledgeBase.simplify_from_known_locs
        [mkClause [((("P" : String), ((1 : Int), (1 : Int))), true),
            ((("P" : String), ((2 : Int), (1 : Int))), false)],
         mkClause [((("P" : String), ((1 : Int), (1 : Int))), false),
            ((("P" : String), ((1 : Int), (2 : Int))), true)]]
        [(1, 1)] [] =
      [mkClause [((("P" : String), ((1 : Int), (1 : Int))), false),
          ((("P" : String), ((1 : Int), (2 : Int))), true)]] ∧
    ¬ mcMem (mkClause [((("P" : String), ((1 : Int), (2 : Int))), true)])
        (MazeKnowledgeBase.simplify_from_known_locs
          [mkClause [((("P" : String), ((1 : Int), (1 : Int))), true),
              ((("P" : String), ((2 : Int), (1 : Int))), false)],
           mkClause [((("P" : String), ((1 : Int), (1 : Int))), false),
              ((("P" : String), ((1 : Int), (2 : Int))), true)]]
          [(1, 1)] []) := by
  constructor <;> decide

/-- C8: evaluation of the simplification at the failing input, refuting
idempotence.  With two clauses both satisfied by the fact "(0,0) is a pit",
the first application removes only the first (the loop `break`s) and the
second application removes the other, so the second application still
changes the clause set. -/
theorem claim_C8 :
    MazeKnowledgeBase.simplify_from_known_locs
        [mkClause [((("P" : String), ((0 : Int), (0 : Int))), true),
            ((("P" : String), ((1 : Int), (0 : Int))), true)],
         mkClause [((("P" : String), ((0 : Int), (0 : Int))), true),
            ((("P" : String), ((2 : Int), (0 : Int))), true)]]
        [(0, 0)] [] =
      [mkClause [((("P" : String), ((0 : Int), (0 : Int))), true),
          ((("P" : String), ((2 : Int), (0 : Int))), true)]] ∧
    MazeKnowledgeBase.simplify_from_known_locs
        (MazeKnowledgeBase.simplify_from_known_locs
          [mkClause [((("P" : String), ((0 : Int), (0 : Int))), true),
              ((("P" : String), ((1 : Int), (0 : Int))), true)],
           mkClause [((("P" : String), ((0 : Int), (0 : Int))), true),
              ((("P" : String), ((2 : Int), (0 : Int))), true)]]
          [(0, 0)] [])
        [(0, 0)] [] = [] := by
  constructor <;> decide

/-- C9 (amended): constructing a `Move` with a scan direction that is
neither `None` nor one of `"U"`, `"D"`, `"L"`, `"R"` raises `ValueError`;
the coordinate is never validated — `Move` accepts any location, so
out-of-range coordinates are not rejected at construction (see the
counterexample). -/
theorem claim_C9 :
    (∀ (loc : Loc) (d : String), d ≠ "U" ∧ d ≠ "D" ∧ d ≠ "L" ∧ d ≠ "R" →
      ∃ msg, moveInit loc (some d) = Except.error msg) ∧
    (∀ loc : Loc, moveInit loc none = Except.ok ⟨loc, none⟩) ∧
    (∀ (loc : Loc) (d : String), d = "U" ∨ d = "D" ∨ d = "L" ∨ d = "R" →
      moveInit loc (some d) = Except.ok ⟨loc, some d⟩) := by
  refine ⟨?_, fun loc => rfl, ?_⟩
  · intro loc d hd
    refine ⟨"Sensor direction must be one of U, D, L, R or None", ?_⟩
    show (if d = "U" ∨ d = "D" ∨ d = "L" ∨ d = "R" then
        Except.ok (⟨loc, some d⟩ : Move)
      else
        Except.error "Sensor direction must be one of U, D, L, R or None") =
      Except.error "Sensor direction must be one of U, D, L, R or None"
    rw [if_neg]
    rintro (h | h | h | h)
    exacts [hd.1 h, hd.2.1 h, hd.2.2.1 h, hd.2.2.2 h]
  · intro loc d hd
    show (if d = "U" ∨ d = "D" ∨ d = "L" ∨ d = "R" then
        Except.ok (⟨loc, some d⟩ : Move)
      else
        Except.error "Sensor direction must be one of U, D, L, R or None") =
      Except.ok ⟨loc, some d⟩
    rw [if_pos hd]

/-- C9 counterexample: a `Move` whose coordinate is far outside any maze
boundary is accepted without any error, both without and with a scan
direction, where the claim demands immediate rejection. -/
theorem claim_C9_counterexample :
    moveInit ((-1 : Int), (-1 : Int)) none =
      Except.ok ⟨((-1 : Int), (-1 : Int)), none⟩ ∧
    moveInit ((-1 : Int), (-1 : Int)) (some "U") =
      Except.ok ⟨((-1 : Int), (-1 : Int)), some "U"⟩ := by
  constructor <;> rfl

/-- Witness for C9 at the malformed direction `"Q"` and the well-formed
direction `"L"`. -/
theorem claim_C9_witness :
    (∃ msg, moveInit ((0 : Int), (0 : Int)) (some "Q") = Except.error msg) ∧
    moveInit ((0 : Int), (0 : Int)) none = Except.ok ⟨(0, 0), none⟩ ∧
    moveInit ((0 : Int), (0 : Int)) (some "L") = Except.ok ⟨(0, 0), some "L"⟩ :=
  ⟨claim_C9.1 _ "Q" (by decide), claim_C9.2.1 _, claim_C9.2.2 _ "L" (by decide)⟩

/-- C10: `ask` (and therefore `is_safe_tile`, which only reads the belief
sets and calls `ask`) leaves the knowledge base and agent state exactly as
received: the refutation loop works on a private copy of the clause set. -/
theorem claim_C10 :
    (∀ (kb : MazeKnowledgeBase) (q : MazeClause), (kb.askOp q).2 = kb) ∧
    (∀ (s : AgentState) (loc : Loc), (isSafeTile s loc).2 = s) := by
  refine ⟨fun kb q => rfl, fun s loc => ?_⟩
  unfold isSafeTile
  split
  · rfl
  · split
    · rfl
    · simp only [MazeKnowledgeBase.askOp]
      split
      · rfl
      · split <;> rfl

/-! ### Agent belief-set lemmas -/

theorem mem_locAdd_of_mem {s : List Loc} {l : Loc} (x : Loc) (h : l ∈ s) :
    l ∈ locAdd s x := by
  unfold locAdd
  split
  · exact h
  · exact List.mem_append_left _ h

theorem mem_locAdd_self (s : List Loc) (l : Loc) : l ∈ locAdd s l := by
  unfold locAdd
  split
  · next h => simpa using h
  · exact List.mem_append_right _ (List.mem_singleton.2 rfl)

theorem mcMem_tell_self (kb : MazeKnowledgeBase) (c : MazeClause) :
    mcMem c (kb.tell c).clauses := by
  show mcMem c (mcSetAdd kb.clauses c)
  unfold mcSetAdd
  split
  · next h =>
    unfold mcElem at h
    rw [List.any_eq_true] at h
    obtain ⟨c', hc', heq⟩ := h
    exact ⟨c', hc', mcEq_symm heq⟩
  · exact ⟨c, List.mem_append_right _ (List.mem_singleton.2 rfl), mcEq_refl c⟩

theorem foldl_pit_eq {α : Type} {f : AgentState → α → AgentState}
    (hf : ∀ st x, (f st x).pit_tiles = st.pit_tiles) :
    ∀ (xs : List α) (s : AgentState), (xs.foldl f s).pit_tiles = s.pit_tiles := by
  intro xs
  induction xs with
  | nil => intro s; rfl
  | cons x rest ih =>
    intro s
    rw [List.foldl_cons, ih, hf]

theorem foldl_pit_mono {α : Type} {f : AgentState → α → AgentState}
    (hf : ∀ st x l, l ∈ st.pit_tiles → l ∈ (f st x).pit_tiles) :
    ∀ (xs : List α) (s : AgentState) (l : Loc),
      l ∈ s.pit_tiles → l ∈ (xs.foldl f s).pit_tiles := by
  intro xs
  induction xs with
  | nil => intro s l h; exact h
  | cons x rest ih =>
    intro s l h
    exact ih _ _ (hf s x l h)

theorem checkGoal_pit_eq (env : Env) (s : AgentState) :
    (checkGoalSafetyConstraints env s).pit_tiles = s.pit_tiles := by
  simp only [checkGoalSafetyConstraints]
  split
  · split <;> rfl
  · rfl

theorem deduce_pit_mono (s : AgentState) (scanned : List Loc) (l : Loc)
    (h : l ∈ s.pit_tiles) : l ∈ (deduceTileStates s scanned).pit_tiles := by
  unfold deduceTileStates
  refine foldl_pit_mono ?_ scanned s l h
  intro st x m hm
  dsimp only
  split
  · exact hm
  · split
    · exact hm
    · split
      · exact mem_locAdd_of_mem _ hm
      · exact hm

theorem createPit_pit_eq (s : AgentState) (t : List Loc) (k : Nat) :
    (createPitConstraintClauses s t k).pit_tiles = s.pit_tiles := by
  simp only [createPitConstraintClauses]
  split
  · refine Eq.trans (foldl_pit_eq ?_ _ _) ?_
    · intro st x
      dsimp only
      split <;> rfl
    · split
      · refine foldl_pit_eq ?_ _ _
        intro st x
        dsimp only
        split <;> rfl
      · rfl
  · split
    · refine foldl_pit_eq ?_ _ _
      intro st x
      dsimp only
      split <;> rfl
    · rfl

theorem install_pit_eq (s : AgentState) (t : List Loc) (k : Nat) :
    (addPitConstraintInstall s t k).pit_tiles = s.pit_tiles := by
  simp only [addPitConstraintInstall]
  split
  · refine Eq.trans (foldl_pit_eq ?_ _ _) (foldl_pit_eq ?_ _ _) <;>
      (intro st x; dsimp only; split <;> rfl)
  · split
    · refine Eq.trans (foldl_pit_eq ?_ _ _) (foldl_pit_eq ?_ _ _) <;>
        (intro st x; dsimp only; split <;> rfl)
    · refine Eq.trans (createPit_pit_eq _ _ _) (foldl_pit_eq ?_ _ _)
      intro st x
      dsimp only
      split <;> rfl

theorem addPit_pit_mono (env : Env) (s : AgentState) (t : List Loc) (k : Nat)
    (l : Loc) (h : l ∈ s.pit_tiles) :
    l ∈ (addPitConstraint env s t k).pit_tiles := by
  unfold addPitConstraint
  rw [checkGoal_pit_eq]
  apply deduce_pit_mono
  rw [install_pit_eq]
  exact h

theorem processScanner_pit_mono (env : Env) (s : AgentState) (cur : Loc)
    (n : Nat) (d : String) (l : Loc) (h : l ∈ s.pit_tiles) :
    l ∈ (processScannerReading env s cur n d).pit_tiles := by
  simp only [processScannerReading]
  split
  · have heq : _ = s.pit_tiles := @foldl_pit_eq Loc
      (fun (st : AgentState) tile =>
        if !st.safe_tiles.contains tile && !st.pit_tiles.contains tile then
          { st with safe_tiles := locAdd st.safe_tiles tile,
                    kb := st.kb.tell (unitClause tile false) }
        else st)
      (by intro st x; dsimp only; split <;> rfl)
      (env.directionalLocs cur d 3) s
    rw [heq]
    exact h
  · exact addPit_pit_mono _ _ _ _ _ h

theorem thinkUpdate_pit_mono (env : Env) (s : AgentState) (p : Perception)
    (l : Loc) (h : l ∈ s.pit_tiles) : l ∈ (thinkUpdate env s p).pit_tiles := by
  rcases hsn : p.sensorNum with _ | n <;>
    rcases hsd : p.sensorDir with _ | d <;>
      simp only [thinkUpdate, hsn, hsd]
  · split
    · exact mem_locAdd_of_mem _ h
    · split
      · exact h
      · exact h
  · split
    · exact mem_locAdd_of_mem _ h
    · split
      · exact h
      · exact h
  · split
    · exact mem_locAdd_of_mem _ h
    · split
      · exact h
      · exact h
  · have h2 : l ∈ (processScannerReading env
        (if p.tile == "P" then
          { s with pit_tiles := locAdd s.pit_tiles p.loc,
                   kb := s.kb.tell (unitClause p.loc true) }
        else if p.tile == "." || p.tile == "G" then
          { s with safe_tiles := locAdd s.safe_tiles p.loc,
                   kb := s.kb.tell (unitClause p.loc false) }
        else s) p.loc n d).pit_tiles := by
      apply processScanner_pit_mono
      split
      · exact mem_locAdd_of_mem _ h
      · split
        · exact h
        · exact h
    split
    · split
      · exact h2
      · exact h2
    · exact h2

/-- C5 (amended): belief movement is one-way for the known-hazard set —
once a coordinate is in `pit_tiles`, no sequence of perception-processing
updates removes it.  The known-safe set does NOT enjoy the claimed
invariant: the dead-tile handling of a scan with positive count removes
coordinates from `safe_tiles` (see the counterexample). -/
theorem claim_C5 :
    ∀ (env : Env) (ps : List Perception) (s : AgentState) (l : Loc),
      l ∈ s.pit_tiles → l ∈ (ps.foldl (thinkUpdate env) s).pit_tiles := by
  intro env ps
  induction ps with
  | nil => intro s l h; exact h
  | cons p rest ih =>
    intro s l h
    exact ih _ _ (thinkUpdate_pit_mono env s p l h)

/-- C5 counterexample: a coordinate in the known-safe set is removed from it
by a single perception-processing update.  Tile `(1,0)` is known safe; a
scan to the right reporting one pit makes the agent mark the first scanned
tile dead and delete it from `safe_tiles`. -/
theorem claim_C5_counterexample :
    ((1 : Int), (0 : Int)) ∈
      (⟨⟨[]⟩, [], [((1 : Int), (0 : Int))], [], [], (9, 9)⟩ :
        AgentState).safe_tiles ∧
    ((1 : Int), (0 : Int)) ∉
      (thinkUpdate ⟨fun _ _ => [], fun _ _ _ => [(1, 0)], []⟩
        ⟨⟨[]⟩, [], [((1 : Int), (0 : Int))], [], [], (9, 9)⟩
        ⟨(0, 0), ".", some 1, some "R"⟩).safe_tiles := by
  constructor <;> decide

/-- Witness for C5: a known pit at `(2,2)` survives a two-perception
sequence. -/
theorem claim_C5_witness :
    ((2 : Int), (2 : Int)) ∈
      (⟨⟨[]⟩, [], [], [((2 : Int), (2 : Int))], [], (9, 9)⟩ :
        AgentState).pit_tiles ∧
    ((2 : Int), (2 : Int)) ∈
      ([⟨(0, 0), ".", none, none⟩, ⟨(0, 1), "P", none, none⟩].foldl
        (thinkUpdate ⟨fun _ _ => [], fun _ _ _ => [], []⟩)
        ⟨⟨[]⟩, [], [], [((2 : Int), (2 : Int))], [], (9, 9)⟩).pit_tiles :=
  ⟨by decide, claim_C5 _ _ _ _ (by decide)⟩

/-- C6: whenever all-but-one of the goal's cardinal neighbors are known
hazards and exactly one neighbor is undetermined, `_check_goal_safety_constraints`
classifies that neighbor safe: it joins `safe_tiles` and its unit safe
clause is told to the knowledge base. -/
theorem claim_C6 :
    ∀ (env : Env) (s : AgentState),
      (((env.cardinalLocs s.goal 1).filter
          (fun l => s.pit_tiles.contains l)).length : Int) =
        ((env.cardinalLocs s.goal 1).length : Int) - 1 →
      ((env.cardinalLocs s.goal 1).filter
          (fun l => !s.safe_tiles.contains l &&
            !s.pit_tiles.contains l)).length = 1 →
      ∃ t, (env.cardinalLocs s.goal 1).filter
          (fun l => !s.safe_tiles.contains l && !s.pit_tiles.contains l) =
          [t] ∧
        t ∈ (checkGoalSafetyConstraints env s).safe_tiles ∧
        mcMem (unitClause t false)
          (checkGoalSafetyConstraints env s).kb.clauses := by
  intro env s h1 h2
  obtain ⟨t, ht⟩ := List.length_eq_one.1 h2
  refine ⟨t, ht, ?_⟩
  simp only [checkGoalSafetyConstraints]
  rw [if_pos ⟨h1, h2⟩, ht]
  exact ⟨mem_locAdd_self _ _, mcMem_tell_self _ _⟩

/-- Witness for C6: goal `(0,0)` with neighbors `(1,0)` (known pit) and
`(0,1)` (undetermined); the latter is classified safe. -/
theorem claim_C6_witness :
    (∃ t, ([((1 : Int), (0 : Int)), ((0 : Int), (1 : Int))].filter
        (fun l => !(([] : List Loc).contains l) &&
          !([((1 : Int), (0 : Int))].contains l))) = [t] ∧
      t ∈ (checkGoalSafetyConstraints
        ⟨fun _ _ => [((1 : Int), (0 : Int)), ((0 : Int), (1 : Int))],
          fun _ _ _ => [], []⟩
        ⟨⟨[]⟩, [], [], [((1 : Int), (0 : Int))], [], (0, 0)⟩).safe_tiles ∧
      mcMem (unitClause t false)
        (checkGoalSafetyConstraints
          ⟨fun _ _ => [((1 : Int), (0 : Int)), ((0 : Int), (1 : Int))],
            fun _ _ _ => [], []⟩
          ⟨⟨[]⟩, [], [], [((1 : Int), (0 : Int))], [], (0, 0)⟩).kb.clauses) :=
  claim_C6
    ⟨fun _ _ => [((1 : Int), (0 : Int)), ((0 : Int), (1 : Int))],
      fun _ _ _ => [], []⟩
    ⟨⟨[]⟩, [], [], [((1 : Int), (0 : Int))], [], (0, 0)⟩
    (by decide) (by decide)

/-! ### BFS path lemmas -/

theorem tail_append_singleton {l : List Loc} (x : Loc) (h : l ≠ []) :
    (l ++ [x]).tail = l.tail ++ [x] := by
  cases l with
  | nil => exact absurd rfl h
  | cons a rest => rfl

theorem bfsExpand_found_safe (playable pits dead : List Loc) (goal cur : Loc)
    (path : List Loc) (dirs : List (Int × Int)) :
    ∀ (queue : List (Loc × List Loc)) (visited : List Loc)
      (found : List Loc) (q' : List (Loc × List Loc)) (v' : List Loc),
      path ≠ [] → (∀ t ∈ path.tail, t ∉ pits ∧ t ∉ dead) →
      bfsExpand playable pits dead goal cur path dirs queue visited =
        (some found, q', v') →
      ∀ t ∈ found.tail, t ∉ pits ∧ t ∉ dead := by
  induction dirs with
  | nil =>
    intro queue visited found q' v' hne hinv heq
    simp [bfsExpand] at heq
  | cons dxy rest ih =>
    intro queue visited found q' v' hne hinv heq
    obtain ⟨dx, dy⟩ := dxy
    simp only [bfsExpand] at heq
    split at heq
    · exact ih queue visited found q' v' hne hinv heq
    · split at heq
      · exact ih queue visited found q' v' hne hinv heq
      · rename_i hcond1 hcond2
        split at heq
        · rename_i hgoal
          have h1 : path ++ [(cur.1 + dx, cur.2 + dy)] = found := by
            have := congrArg Prod.fst heq
            simpa using this
          intro t ht
          rw [← h1, tail_append_singleton _ hne] at ht
          rcases List.mem_append.1 ht with hmem | hmem
          · exact hinv t hmem
          · have ht2 : t = (cur.1 + dx, cur.2 + dy) :=
              List.mem_singleton.1 hmem
            rw [ht2]
            constructor
            · intro hmem2
              exact hcond2 (by simp [hmem2])
            · intro hmem2
              exact hcond2 (by simp [hmem2])
        · exact ih _ _ found q' v' hne hinv heq

theorem bfsExpand_none_safe (playable pits dead : List Loc) (goal cur : Loc)
    (path : List Loc) (dirs : List (Int × Int)) :
    ∀ (queue : List (Loc × List Loc)) (visited : List Loc)
      (q' : List (Loc × List Loc)) (v' : List Loc),
      path ≠ [] → (∀ t ∈ path.tail, t ∉ pits ∧ t ∉ dead) →
      (∀ pr ∈ queue, pr.2 ≠ [] ∧ ∀ t ∈ pr.2.tail, t ∉ pits ∧ t ∉ dead) →
      bfsExpand playable pits dead goal cur path dirs queue visited =
        (none, q', v') →
      ∀ pr ∈ q', pr.2 ≠ [] ∧ ∀ t ∈ pr.2.tail, t ∉ pits ∧ t ∉ dead := by
  induction dirs with
  | nil =>
    intro queue visited q' v' hne hinv hq heq
    simp only [bfsExpand] at heq
    have hq' : queue = q' := by
      have := congrArg (fun x => x.2.1) heq
      simpa using this
    rw [← hq']
    exact hq
  | cons dxy rest ih =>
    intro queue visited q' v' hne hinv hq heq
    obtain ⟨dx, dy⟩ := dxy
    simp only [bfsExpand] at heq
    split at heq
    · exact ih queue visited q' v' hne hinv hq heq
    · split at heq
      · exact ih queue visited q' v' hne hinv hq heq
      · rename_i hcond1 hcond2
        split at heq
        · simp at heq
        · refine ih _ _ q' v' hne hinv ?_ heq
          intro pr hpr
          rcases List.mem_append.1 hpr with hmem | hmem
          · exact hq pr hmem
          · have hpr2 : pr = ((cur.1 + dx, cur.2 + dy),
                path ++ [(cur.1 + dx, cur.2 + dy)]) :=
              List.mem_singleton.1 hmem
            rw [hpr2]
            refine ⟨by simp, ?_⟩
            intro t ht
            rw [tail_append_singleton _ hne] at ht
            rcases List.mem_append.1 ht with hmem2 | hmem2
            · exact hinv t hmem2
            · have ht2 : t = (cur.1 + dx, cur.2 + dy) :=
                List.mem_singleton.1 hmem2
              rw [ht2]
              constructor
              · intro hmem3
                exact hcond2 (by simp [hmem3])
              · intro hmem3
                exact hcond2 (by simp [hmem3])

theorem bfsLoop_safe (playable pits dead : List Loc) (goal : Loc)
    (dirs : List (Int × Int)) :
    ∀ (fuel : Nat) (queue : List (Loc × List Loc)) (visited : List Loc),
      (∀ pr ∈ queue, pr.2 ≠ [] ∧ ∀ t ∈ pr.2.tail, t ∉ pits ∧ t ∉ dead) →
      ∀ t ∈ (bfsLoop playable pits dead goal dirs fuel queue visited).tail,
        t ∉ pits ∧ t ∉ dead := by
  intro fuel
  induction fuel with
  | zero =>
    intro queue visited hq t ht
    simp [bfsLoop] at ht
  | succ n ih =>
    intro queue visited hq t ht
    cases queue with
    | nil => simp [bfsLoop] at ht
    | cons pr rest =>
      obtain ⟨cur, path⟩ := pr
      have hpr := hq (cur, path) (List.mem_cons_self _ _)
      rw [bfsLoop] at ht
      rcases hexp : bfsExpand playable pits dead goal cur path dirs rest
          visited with ⟨_ | found, q', v'⟩
      · simp only [hexp] at ht
        refine ih q' v' ?_ t ht
        exact bfsExpand_none_safe playable pits dead goal cur path dirs rest
          visited q' v' hpr.1 hpr.2
          (fun pr' hpr' => hq pr' (List.mem_cons_of_mem _ hpr')) hexp
      · simp only [hexp] at ht
        exact bfsExpand_found_safe playable pits dead goal cur path dirs rest
          visited found q' v' hpr.1 hpr.2 hexp t ht

/-- C7 (amended): in either direction-priority variant, every tile on the
returned path other than the start tile avoids both the known-hazard set and
the dead-tile set at the time of the search.  The start tile itself is NOT
excluded: the BFS returns paths beginning at the given start location even
when that location is a known pit (see the counterexample). -/
theorem claim_C7 :
    ∀ (env : Env) (s : AgentState) (startLoc : Loc) (t : Loc),
      (t ∈ (getQuickestPathToGoal env s startLoc).tail →
        t ∉ s.pit_tiles ∧ t ∉ s.dead_tiles) ∧
      (t ∈ (getQuickestPathToGoalHorizontalPriority env s startLoc).tail →
        t ∉ s.pit_tiles ∧ t ∉ s.dead_tiles) := by
  intro env s startLoc t
  constructor <;>
  · intro ht
    revert ht
    simp only [getQuickestPathToGoal,
      getQuickestPathToGoalHorizontalPriority, quickestPath]
    split
    · intro ht
      simp at ht
    · intro ht
      refine bfsLoop_safe env.playableLocs s.pit_tiles s.dead_tiles s.goal _
        _ _ _ ?_ t ht
      rintro pr hpr
      have hpr2 : pr = (startLoc, [startLoc]) := List.mem_singleton.1 hpr
      rw [hpr2]
      exact ⟨by simp, fun u hu => absurd hu (by simp)⟩

/-- C7 counterexample: starting on a known pit, the BFS returns a path whose
first tile is in the known-hazard set, refuting "never includes any tile
classified hazard, including endpoints". -/
theorem claim_C7_counterexample :
    getQuickestPathToGoal ⟨fun _ _ => [], fun _ _ _ => [], [(0, 0), (0, 1)]⟩
        ⟨⟨[]⟩, [], [], [((0 : Int), (0 : Int))], [], (0, 1)⟩ (0, 0) =
      [(0, 0), (0, 1)] ∧
    ((0 : Int), (0 : Int)) ∈
      (⟨⟨[]⟩, [], [], [((0 : Int), (0 : Int))], [], ((0 : Int), (1 : Int))⟩ :
        AgentState).pit_tiles := by
  constructor <;> decide

/-- Witness for C7: with no known pits the returned path `[(0,0), (0,1)]`
has its non-start tile `(0,1)` outside both hazard sets. -/
theorem claim_C7_witness :
    ((0 : Int), (1 : Int)) ∈
      (getQuickestPathToGoal ⟨fun _ _ => [], fun _ _ _ => [], [(0, 0), (0, 1)]⟩
        ⟨⟨[]⟩, [], [], [], [], (0, 1)⟩ (0, 0)).tail ∧
    (((0 : Int), (1 : Int)) ∉
        (⟨⟨[]⟩, [], [], [], [], ((0 : Int), (1 : Int))⟩ :
          AgentState).pit_tiles ∧
      ((0 : Int), (1 : Int)) ∉
        (⟨⟨[]⟩, [], [], [], [], ((0 : Int), (1 : Int))⟩ :
          AgentState).dead_tiles) :=
  ⟨by decide,
    (claim_C7 ⟨fun _ _ => [], fun _ _ _ => [], [(0, 0), (0, 1)]⟩
      ⟨⟨[]⟩, [], [], [], [], (0, 1)⟩ (0, 0) ((0 : Int), (1 : Int))).1
      (by decide)⟩

/-! ### Constraint-installation (`_add_pit_constraint`) lemmas -/

theorem mcMem_tell {kb : MazeKnowledgeBase} {c d : MazeClause} :
    mcMem c (kb.tell d).clauses ↔ mcMem c kb.clauses ∨ mcEq c d = true := by
  show mcMem c (mcSetAdd kb.clauses d) ↔ _
  unfold mcSetAdd
  split
  · next h =>
    constructor
    · exact Or.inl
    · rintro (hm | hEq)
      · exact hm
      · unfold mcElem at h
        rw [List.any_eq_true] at h
        obtain ⟨c', hc', h'⟩ := h
        exact ⟨c', hc', mcEq_trans hEq (mcEq_symm h')⟩
  · constructor
    · rintro ⟨c', hc', hEq⟩
      rcases List.mem_append.1 hc' with hm | hm
      · exact Or.inl ⟨c', hm, hEq⟩
      · exact Or.inr ((List.mem_singleton.1 hm) ▸ hEq)
    · rintro (⟨c', hc', hEq⟩ | hEq)
      · exact ⟨c', List.mem_append_left _ hc', hEq⟩
      · exact ⟨d, List.mem_append_right _ (List.mem_singleton.2 rfl), hEq⟩

theorem mem_combinations :
    ∀ (l : List Loc) (k : Nat) (c : List Loc),
      c ∈ combinations k l ↔ c.Sublist l ∧ c.length = k := by
  intro l
  induction l with
  | nil =>
    intro k c
    cases k with
    | zero =>
      simp only [combinations, List.mem_singleton]
      constructor
      · rintro rfl
        exact ⟨List.Sublist.refl _, rfl⟩
      · rintro ⟨hs, hl⟩
        cases c with
        | nil => rfl
        | cons a rest => exact absurd hs (by simp)
    | succ k =>
      simp only [combinations, List.not_mem_nil, false_iff, not_and]
      intro hs
      have : c = [] := List.sublist_nil.1 hs
      rw [this]
      simp
  | cons x rest ih =>
    intro k c
    cases k with
    | zero =>
      simp only [combinations, List.mem_singleton]
      constructor
      · rintro rfl
        exact ⟨List.nil_sublist _, rfl⟩
      · rintro ⟨hs, hl⟩
        exact List.length_eq_zero.1 hl
    | succ k =>
      simp only [combinations, List.mem_append, List.mem_map]
      constructor
      · rintro (⟨c', hc', rfl⟩ | hc)
        · obtain ⟨hs, hl⟩ := (ih k c').1 hc'
          exact ⟨hs.cons₂ x, by simp [hl]⟩
        · obtain ⟨hs, hl⟩ := (ih (k + 1) c).1 hc
          exact ⟨hs.cons x, hl⟩
      · rintro ⟨hs, hl⟩
        cases hs with
        | cons _ hs' => exact Or.inr ((ih (k + 1) c).2 ⟨hs', hl⟩)
        | cons₂ _ hs' =>
          rename_i c'
          refine Or.inl ⟨c', (ih k c').2 ⟨hs', ?_⟩, rfl⟩
          simpa using hl

theorem foldl_possible_only {α : Type} {f : AgentState → α → AgentState}
    (hf : ∀ st x, (f st x).kb = st.kb ∧ (f st x).safe_tiles = st.safe_tiles ∧
      (f st x).pit_tiles = st.pit_tiles) :
    ∀ (xs : List α) (s : AgentState),
      (xs.foldl f s).kb = s.kb ∧ (xs.foldl f s).safe_tiles = s.safe_tiles ∧
        (xs.foldl f s).pit_tiles = s.pit_tiles := by
  intro xs
  induction xs with
  | nil => intro s; exact ⟨rfl, rfl, rfl⟩
  | cons x rest ihx =>
    intro s
    rw [List.foldl_cons]
    obtain ⟨h1, h2, h3⟩ := ihx (f s x)
    obtain ⟨g1, g2, g3⟩ := hf s x
    exact ⟨h1.trans g1, h2.trans g2, h3.trans g3⟩

theorem installSafe_mem :
    ∀ (tiles : List Loc) (s : AgentState) (c : MazeClause),
      mcMem c ((tiles.foldl (fun st tile =>
          if !st.safe_tiles.contains tile && !st.pit_tiles.contains tile then
            { st with kb := st.kb.tell (unitClause tile false) }
          else st) s).kb.clauses) ↔
        (mcMem c s.kb.clauses ∨ ∃ t ∈ tiles,
          (!s.safe_tiles.contains t && !s.pit_tiles.contains t) = true ∧
          mcEq c (unitClause t false) = true) := by
  intro tiles
  induction tiles with
  | nil => intro s c; simp
  | cons t rest ih =>
    intro s c
    rw [List.foldl_cons]
    by_cases hq : (!s.safe_tiles.contains t && !s.pit_tiles.contains t) = true
    · rw [if_pos hq, ih, mcMem_tell]
      simp only [List.mem_cons]
      constructor
      · rintro ((hm | hEq) | ⟨t', ht', hcond, hEq⟩)
        · exact Or.inl hm
        · exact Or.inr ⟨t, Or.inl rfl, hq, hEq⟩
        · exact Or.inr ⟨t', Or.inr ht', hcond, hEq⟩
      · rintro (hm | ⟨t', ht' | ht', hcond, hEq⟩)
        · exact Or.inl (Or.inl hm)
        · exact Or.inl (Or.inr (ht' ▸ hEq))
        · exact Or.inr ⟨t', ht', hcond, hEq⟩
    · rw [if_neg hq, ih]
      simp only [List.mem_cons]
      constructor
      · rintro (hm | ⟨t', ht', hcond, hEq⟩)
        · exact Or.inl hm
        · exact Or.inr ⟨t', Or.inr ht', hcond, hEq⟩
      · rintro (hm | ⟨t', ht' | ht', hcond, hEq⟩)
        · exact Or.inl hm
        · exact absurd (ht' ▸ hcond) hq
        · exact Or.inr ⟨t', ht', hcond, hEq⟩

theorem installPit_mem :
    ∀ (tiles : List Loc) (s : AgentState) (c : MazeClause),
      mcMem c ((tiles.foldl (fun st tile =>
          if !st.pit_tiles.contains tile then
            { st with kb := st.kb.tell (unitClause tile true) }
          else st) s).kb.clauses) ↔
        (mcMem c s.kb.clauses ∨ ∃ t ∈ tiles,
          (!s.pit_tiles.contains t) = true ∧
          mcEq c (unitClause t true) = true) := by
  intro tiles
  induction tiles with
  | nil => intro s c; simp
  | cons t rest ih =>
    intro s c
    rw [List.foldl_cons]
    by_cases hq : (!s.pit_tiles.contains t) = true
    · rw [if_pos hq, ih, mcMem_tell]
      simp only [List.mem_cons]
      constructor
      · rintro ((hm | hEq) | ⟨t', ht', hcond, hEq⟩)
        · exact Or.inl hm
        · exact Or.inr ⟨t, Or.inl rfl, hq, hEq⟩
        · exact Or.inr ⟨t', Or.inr ht', hcond, hEq⟩
      · rintro (hm | ⟨t', ht' | ht', hcond, hEq⟩)
        · exact Or.inl (Or.inl hm)
        · exact Or.inl (Or.inr (ht' ▸ hEq))
        · exact Or.inr ⟨t', ht', hcond, hEq⟩
    · rw [if_neg hq, ih]
      simp only [List.mem_cons]
      constructor
      · rintro (hm | ⟨t', ht', hcond, hEq⟩)
        · exact Or.inl hm
        · exact Or.inr ⟨t', Or.inr ht', hcond, hEq⟩
      · rintro (hm | ⟨t', ht' | ht', hcond, hEq⟩)
        · exact Or.inl hm
        · exact absurd (ht' ▸ hcond) hq
        · exact Or.inr ⟨t', ht', hcond, hEq⟩

theorem comboFold_mem (tv : Bool) :
    ∀ (combos : List (List Loc)) (s : AgentState) (c : MazeClause),
      mcMem c ((combos.foldl (fun st combo =>
          if (combo.map (fun t => ((("P" : String), t), tv))).length ≠ 0 then
            { st with kb := st.kb.tell (mkClause (combo.map (fun t => ((("P" : String), t), tv)))) }
          else st) s).kb.clauses) ↔
        (mcMem c s.kb.clauses ∨ ∃ combo ∈ combos, combo ≠ [] ∧
          mcEq c (mkClause (combo.map (fun t =>
            ((("P" : String), t), tv)))) = true) := by
  intro combos
  induction combos with
  | nil => intro s c; simp
  | cons combo rest ih =>
    intro s c
    rw [List.foldl_cons]
    by_cases hq : (combo.map (fun t => ((("P" : String), t), tv))).length ≠ 0
    · have hne : combo ≠ [] := by
        intro hc
        rw [hc] at hq
        exact hq rfl
      rw [if_pos hq, ih, mcMem_tell]
      simp only [List.mem_cons]
      constructor
      · rintro ((hm | hEq) | ⟨c', hc', hcond, hEq⟩)
        · exact Or.inl hm
        · exact Or.inr ⟨combo, Or.inl rfl, hne, hEq⟩
        · exact Or.inr ⟨c', Or.inr hc', hcond, hEq⟩
      · rintro (hm | ⟨c', hc' | hc', hcond, hEq⟩)
        · exact Or.inl (Or.inl hm)
        · exact Or.inl (Or.inr (hc' ▸ hEq))
        · exact Or.inr ⟨c', hc', hcond, hEq⟩
    · have hce : combo = [] := by
        rcases combo with _ | ⟨a, rest'⟩
        · rfl
        · exact absurd (by simp) hq
      rw [if_neg hq, ih]
      simp only [List.mem_cons]
      constructor
      · rintro (hm | ⟨c', hc', hcond, hEq⟩)
        · exact Or.inl hm
        · exact Or.inr ⟨c', Or.inr hc', hcond, hEq⟩
      · rintro (hm | ⟨c', hc' | hc', hcond, hEq⟩)
        · exact Or.inl hm
        · exact absurd (hc' ▸ hce) hcond
        · exact Or.inr ⟨c', hc', hcond, hEq⟩

theorem not_contains_and {a b : List Loc} {t : Loc} :
    (!a.contains t && !b.contains t) = true ↔ t ∉ a ∧ t ∉ b := by
  simp

theorem not_contains_iff {a : List Loc} {t : Loc} :
    (!a.contains t) = true ↔ t ∉ a := by
  simp

/-- C4 (amended): for a scan of `N` tiles reporting `K` hazards
(`0 ≤ K ≤ N`), the clause-installation step of `_add_pit_constraint` tells
exactly: for `K = 0` a unit safe clause for each scanned tile not already
resolved; for `K = N` (with `K ≠ 0`) a unit hazard clause for each scanned
tile **not already known to be a hazard**; and for `0 < K < N` the
at-least-`K` family (a positive clause for every combination of `N - K + 1`
scanned tiles) and the at-most-`K` family (a negative clause for every
combination of `K + 1` scanned tiles).  Stated as a membership
characterization of the resulting clause set up to `MazeClause.__eq__`. -/
theorem claim_C4 :
    ∀ (s : AgentState) (scanned : List Loc) (k : Nat) (c : MazeClause),
      k ≤ scanned.length →
      (mcMem c (addPitConstraintInstall s scanned k).kb.clauses ↔
        (mcMem c s.kb.clauses ∨
          (k = 0 ∧ ∃ t ∈ scanned, (t ∉ s.safe_tiles ∧ t ∉ s.pit_tiles) ∧
            mcEq c (unitClause t false) = true) ∨
          (k ≠ 0 ∧ k = scanned.length ∧ ∃ t ∈ scanned, t ∉ s.pit_tiles ∧
            mcEq c (unitClause t true) = true) ∨
          (0 < k ∧ k < scanned.length ∧
            ((∃ l, l.Sublist scanned ∧ l.length = scanned.length + 1 - k ∧
                mcEq c (pitClauseOf l) = true) ∨
              (∃ l, l.Sublist scanned ∧ l.length = k + 1 ∧
                mcEq c (safeClauseOf l) = true))))) := by
  intro s scanned k c hk
  simp only [addPitConstraintInstall]
  obtain ⟨h0kb, h0safe, h0pit⟩ := @foldl_possible_only Loc
    (fun st tile =>
      if !st.safe_tiles.contains tile && !st.pit_tiles.contains tile &&
          k != 0 then
        { st with possible_pits := locAdd st.possible_pits tile }
      else st)
    (by intro st x; dsimp only; split <;> exact ⟨rfl, rfl, rfl⟩) scanned s
  by_cases hk0 : k = 0
  · subst hk0
    rw [if_pos (by simp), installSafe_mem, h0kb, h0safe, h0pit]
    constructor
    · rintro (hm | ⟨t, ht, hcond, hEq⟩)
      · exact Or.inl hm
      · exact Or.inr (Or.inl ⟨rfl, t, ht, not_contains_and.1 hcond, hEq⟩)
    · rintro (hm | ⟨_, t, ht, hcond, hEq⟩ | ⟨hne, _⟩ | ⟨hpos, _⟩)
      · exact Or.inl hm
      · exact Or.inr ⟨t, ht, not_contains_and.2 hcond, hEq⟩
      · exact absurd rfl hne
      · exact absurd hpos (by simp)
  · rw [if_neg (by simpa using hk0)]
    by_cases hkN : k = scanned.length
    · rw [if_pos (by simpa using hkN), installPit_mem, h0kb, h0pit]
      constructor
      · rintro (hm | ⟨t, ht, hcond, hEq⟩)
        · exact Or.inl hm
        · exact Or.inr (Or.inr (Or.inl
            ⟨hk0, hkN, t, ht, not_contains_iff.1 hcond, hEq⟩))
      · rintro (hm | ⟨hz, _⟩ | ⟨_, _, t, ht, hcond, hEq⟩ | ⟨_, hlt, _⟩)
        · exact Or.inl hm
        · exact absurd hz hk0
        · exact Or.inr ⟨t, ht, not_contains_iff.2 hcond, hEq⟩
        · exact absurd hkN (Nat.ne_of_lt hlt)
    · have hkpos : 0 < k := Nat.pos_of_ne_zero hk0
      have hklt : k < scanned.length := lt_of_le_of_ne hk hkN
      rw [if_neg (by simpa using hkN)]
      simp only [createPitConstraintClauses]
      rw [if_pos hklt, if_pos hkpos, comboFold_mem, comboFold_mem, h0kb]
      have hlenPos1 : 1 ≤ scanned.length + 1 - k := by omega
      constructor
      · rintro ((hm | ⟨combo, hc', hne, hEq⟩) | ⟨combo, hc', hne, hEq⟩)
        · exact Or.inl hm
        · obtain ⟨hs', hl'⟩ := (mem_combinations scanned _ combo).1 hc'
          exact Or.inr (Or.inr (Or.inr ⟨hkpos, hklt,
            Or.inl ⟨combo, hs', hl', hEq⟩⟩))
        · obtain ⟨hs', hl'⟩ := (mem_combinations scanned _ combo).1 hc'
          exact Or.inr (Or.inr (Or.inr ⟨hkpos, hklt,
            Or.inr ⟨combo, hs', hl', hEq⟩⟩))
      · rintro (hm | ⟨hz, _⟩ | ⟨_, hz, _⟩ | ⟨_, _, ⟨l, hs', hl', hEq⟩ | ⟨l, hs', hl', hEq⟩⟩)
        · exact Or.inl (Or.inl hm)
        · exact absurd hz hk0
        · exact absurd hz hkN
        · refine Or.inl (Or.inr ⟨l, (mem_combinations scanned _ l).2 ⟨hs', hl'⟩, ?_, hEq⟩)
          intro hnil
          rw [hnil] at hl'
          simp at hl'
          omega
        · refine Or.inr ⟨l, (mem_combinations scanned _ l).2 ⟨hs', hl'⟩, ?_, hEq⟩
          intro hnil
          rw [hnil] at hl'
          simp at hl'

/-- C4 counterexample: a scan of the single tile `(1,0)` (already a known
pit) reporting `K = N = 1` tells nothing at all — the whole
`_add_pit_constraint` call leaves the agent state unchanged and no unit
hazard clause for `(1,0)` enters the knowledge base, where the claim
demands a unit hazard clause for each scanned tile. -/
theorem claim_C4_counterexample :
    addPitConstraint ⟨fun _ _ => [], fun _ _ _ => [], []⟩
        ⟨⟨[]⟩, [], [], [((1 : Int), (0 : Int))], [], (9, 9)⟩ [(1, 0)] 1 =
      ⟨⟨[]⟩, [], [], [((1 : Int), (0 : Int))], [], (9, 9)⟩ ∧
    ¬ mcMem (unitClause ((1 : Int), (0 : Int)) true)
      (addPitConstraint ⟨fun _ _ => [], fun _ _ _ => [], []⟩
        ⟨⟨[]⟩, [], [], [((1 : Int), (0 : Int))], [], (9, 9)⟩
        [(1, 0)] 1).kb.clauses := by
  constructor <;> decide

/-- Witness for C4: a three-tile scan reporting one pit installs the
at-least clause over all three tiles. -/
theorem claim_C4_witness :
    mcMem (pitClauseOf [((1 : Int), (0 : Int)), (2, 0), (3, 0)])
      (addPitConstraintInstall ⟨⟨[]⟩, [], [], [], [], (9, 9)⟩
        [(1, 0), (2, 0), (3, 0)] 1).kb.clauses :=
  (claim_C4 ⟨⟨[]⟩, [], [], [], [], (9, 9)⟩ [(1, 0), (2, 0), (3, 0)] 1
      (pitClauseOf [(1, 0), (2, 0), (3, 0)]) (by decide)).2
    (Or.inr (Or.inr (Or.inr ⟨by decide, by decide,
      Or.inl ⟨[(1, 0), (2, 0), (3, 0)], by decide, by decide, by decide⟩⟩)))

end Pitsweeper
